import Mathlib

/-!
Shallow embedding of the Sniffles2 SNF block store (`snf.py`): the `SNFile`
writer (candidate storage, coverage annotation, block flushing and indexing),
the random-access reader (`read_header` / `read_blocks`), and the
`LazySNFile` bounded residency registry.  Python dicts are modelled as
association lists with dict semantics (lookup, in-place update preserving key
order, insertion at the end); machine integers are `Nat`/`Int`; fallible
operations return `Option`/`Except`; opaque library codecs (pickle, gzip,
json) are parameters of the operations that call them.
-/

set_option synthInstance.maxSize 512

namespace Sniffles

/-! ### Python dict primitives over association lists -/

/-- Dict lookup: value at the first occurrence of `key`. -/
def alookup {α β : Type} [DecidableEq α] : List (α × β) → α → Option β
  | [], _ => none
  | (k, v) :: rest, key => if k = key then some v else alookup rest key

/-- Dict assignment `d[key] = v`: update in place, else append at the end. -/
def aset {α β : Type} [DecidableEq α] : List (α × β) → α → β → List (α × β)
  | [], key, v => [(key, v)]
  | (k, w) :: rest, key, v =>
    if k = key then (k, v) :: rest else (k, w) :: aset rest key v

/-- Python `bytes[off : off+len]` as produced by `seek(off); read(len)`. -/
def pyRead (l : List Nat) (off len : Nat) : List Nat := (l.drop off).take len

/-- Python `handle.readline()` from the start of the file: the shortest
prefix ending in a newline byte (10), or the whole contents. -/
def readLine : List Nat → List Nat
  | [] => []
  | b :: rest => if b = 10 then [10] else b :: readLine rest

/-- Python `range(start, stop, step)` for a positive step. -/
def pyRange (start stop step : Nat) : List Nat :=
  List.range' start ((stop - start + step - 1) / step) step

/-- `math.ceil(s / n)` over exact arithmetic, for a positive divisor `n`. -/
def ceilDiv (s : Int) (n : Nat) : Int := -((-s).fdiv n)

/-! ### Data model -/

/-- Modelled from the spec: the fixed "small fixed enumeration of SV types"
(`sv.TYPES`), which lives in the external `sv` module. -/
inductive SVType where
  | INS | DEL | DUP | INV | BND
deriving DecidableEq, Repr

/-- `sv.TYPES`, the list of per-block per-type buckets. -/
def TYPES : List SVType := [.INS, .DEL, .DUP, .INV, .BND]

/-- An SV candidate record: genomic position, type tag, and an optional list
of supporting read names.  Other engine-owned payload is irrelevant here. -/
structure SVCall where
  pos : Nat
  svtype : SVType
  rnames : Option (List String)
deriving DecidableEq, Repr

/-- One block: the per-type candidate sequences (the dict
`{svtype: [] for svtype in sv.TYPES}`) plus the `"_COVERAGE"` sub-mapping. -/
structure Block where
  svs : List (SVType × List SVCall)
  coverage : List (Nat × Int)
deriving DecidableEq, Repr

/-- A freshly created block. -/
def Block.empty : Block := ⟨TYPES.map (fun t => (t, [])), []⟩

/-- `self.blocks[bi][svcand.svtype].append(svcand)`. -/
def Block.addCall (b : Block) (t : SVType) (c : SVCall) : Block :=
  { b with svs :=
      match alookup b.svs t with
      | some l => aset b.svs t (l ++ [c])
      | none => b.svs }

/-- The configuration fields the store consumes. -/
structure Config where
  snf_block_size : Nat
  coverage_binsize : Nat
  coverage_binsize_combine : Nat
  output_rnames : Bool
  combine_close_handles : Bool
deriving DecidableEq, Repr

/-- The write-side state of an `SNFile`: buffered blocks, the (flat,
block-id-keyed) index built by `write_and_index`, the total body length,
and whether the device handle is open. -/
structure SNFileW where
  config : Config
  blocks : List (Nat × Block)
  index : List (Nat × Nat × Nat)
  total_length : Nat
  handle : Bool
deriving DecidableEq, Repr

/-- A fresh writer (`SNFile.__init__`). -/
def initW (cfg : Config) (handle : Bool) : SNFileW := ⟨cfg, [], [], 0, handle⟩

/-- `SNFile.store(svcand)`. -/
def SNFile.store (f : SNFileW) (c : SVCall) : SNFileW :=
  let block_index := c.pos / f.config.snf_block_size * f.config.snf_block_size
  let blocks :=
    match alookup f.blocks block_index with
    | none => f.blocks ++ [(block_index, Block.empty)]
    | some _ => f.blocks
  let c := if f.config.output_rnames then c else { c with rnames := none }
  let blocks :=
    match alookup blocks block_index with
    | some b => aset blocks block_index (b.addCall c.svtype c)
    | none => blocks
  { f with blocks := blocks }

/-- Store a whole sequence of candidates into a fresh writer. -/
def storeAll (cfg : Config) (cs : List SVCall) : SNFileW :=
  cs.foldl SNFile.store (initW cfg true)

/-- The block id of a candidate: `int(pos / snf_block_size) * snf_block_size`. -/
def blkId (cfg : Config) (c : SVCall) : Nat :=
  c.pos / cfg.snf_block_size * cfg.snf_block_size

/-- The read-name clearing `store` applies when read-name output is off. -/
def cleanse (cfg : Config) (c : SVCall) : SVCall :=
  if cfg.output_rnames then c else { c with rnames := none }

/-- The block that `store`-ing `cs` builds for block id `bid`: per type tag,
the candidates of that block and type in insertion order, read names cleared
iff read-name output is disabled; no coverage. -/
def specBlock (cfg : Config) (cs : List SVCall) (bid : Nat) : Block :=
  ⟨TYPES.map (fun t =>
      (t, (cs.filter (fun c => decide (blkId cfg c = bid ∧ c.svtype = t))).map
            (cleanse cfg))),
   []⟩

/-! ### Coverage annotation (`SNFile.annotate_block_coverages`) -/

/-- `if bin in tab: acc += tab[bin]` — one accumulation step against a
(possibly sparse) depth table. -/
def stepTab (tab : Nat → Option Int) (acc : Int) (b : Nat) : Int :=
  match tab b with
  | some d => acc + d
  | none => acc

/-- The loop body of `annotate_block_coverages` over the remaining bins,
carrying `coverage_fwd`, `coverage_rev`, `coverage_sum` and `bin_count`.
Returns the emitted coverage entries `(block id, bin, combined value)`
together with the list of `bin_count` values used as ceiling-division
divisors. -/
def annotateLoop (combine B : Nat) (fwd rev : Nat → Option Int) :
    List Nat → Int → Int → Int → Nat → List (Nat × Nat × Int) × List Nat
  | [], _, _, _, _ => ([], [])
  | b :: rest, cf, cr, s, cnt =>
    let cf := stepTab fwd cf b
    let cr := stepTab rev cr b
    let s := s + cf + cr
    let cnt := cnt + 1
    if b % combine = 0 then
      ((if 0 < ceilDiv s cnt then [(b / B * B, b, ceilDiv s cnt)] else []) ++
         (annotateLoop combine B fwd rev rest cf cr 0 0).1,
       cnt :: (annotateLoop combine B fwd rev rest cf cr 0 0).2)
    else
      annotateLoop combine B fwd rev rest cf cr s cnt

/-- The native bins walked by `annotate_block_coverages`:
`range(covrtab_min_bin, end_bin + coverage_binsize, coverage_binsize)` with
`end_bin = int(end / coverage_binsize) * coverage_binsize`. -/
def annotateBins (cfg : Config) (covrtab_min_bin lead_end : Nat) : List Nat :=
  let end_bin := lead_end / cfg.coverage_binsize * cfg.coverage_binsize
  pyRange covrtab_min_bin (end_bin + cfg.coverage_binsize) cfg.coverage_binsize

/-- The coverage entries emitted by one `annotate_block_coverages` call. -/
def annotateEntries (cfg : Config) (covrtab_min_bin lead_end : Nat)
    (fwd rev : Nat → Option Int) : List (Nat × Nat × Int) :=
  (annotateLoop cfg.coverage_binsize_combine cfg.snf_block_size fwd rev
    (annotateBins cfg covrtab_min_bin lead_end) 0 0 0 0).1

/-- Attaching one emitted coverage entry to the blocks mapping (creating the
block if absent, then `blocks[bi]["_COVERAGE"][bin] = v`). -/
def applyCoverage (blocks : List (Nat × Block)) (e : Nat × Nat × Int) :
    List (Nat × Block) :=
  let blocks :=
    match alookup blocks e.1 with
    | none => blocks ++ [(e.1, Block.empty)]
    | some _ => blocks
  match alookup blocks e.1 with
  | some blk => aset blocks e.1 { blk with coverage := aset blk.coverage e.2.1 e.2.2 }
  | none => blocks

/-- `SNFile.annotate_block_coverages(lead_provider, resolution)`.  The
`resolution` argument mirrors the source parameter, which the body never
reads: the combine width is taken from `config.coverage_binsize_combine`. -/
def annotate_block_coverages (f : SNFileW) (covrtab_min_bin lead_end : Nat)
    (fwd rev : Nat → Option Int) (resolution : Nat) : SNFileW :=
  let _ := resolution
  let entries := annotateEntries f.config covrtab_min_bin lead_end fwd rev
  { f with blocks := entries.foldl applyCoverage f.blocks }

/-! ### Flushing and indexing (`SNFile.write_and_index`) -/

/-- `SNFile.serialize_block(block_id)` with pickling abstract:
`pickle.dumps(self.blocks[block_id])` (only ever called on present keys). -/
def serialize_block (pdump : Block → List Nat) (f : SNFileW) (block_id : Nat) :
    List Nat :=
  pdump ((alookup f.blocks block_id).getD Block.empty)

/-- The flush loop over the sorted block ids, starting at some byte offset:
returns the index entries `(block_id, offset, length)` in iteration order
and the concatenation of the written compressed payloads. -/
def wiLoop (chunk : Nat → List Nat) :
    List Nat → Nat → List (Nat × Nat × Nat) × List Nat
  | [], _ => ([], [])
  | bid :: rest, offset =>
    ((bid, offset, (chunk bid).length) ::
        (wiLoop chunk rest (offset + (chunk bid).length)).1,
     chunk bid ++ (wiLoop chunk rest (offset + (chunk bid).length)).2)

/-- `SNFile.write_and_index()` with gzip compression abstract.  Returns the
updated writer and the byte stream written to the device. -/
def write_and_index (gz : List Nat → List Nat) (pdump : Block → List Nat)
    (f : SNFileW) : SNFileW × List Nat :=
  let f1 := if f.handle then f else { f with handle := true }
  let ids := (f1.blocks.map Prod.fst).insertionSort (· ≤ ·)
  let r := wiLoop (fun bid => gz (serialize_block pdump f1 bid)) ids 0
  ({ f1 with
      index := r.1.foldl (fun ix e => aset ix e.1 e.2) f1.index,
      total_length := f1.total_length + (r.1.map (fun e => e.2.2)).sum,
      handle := if f1.config.combine_close_handles then false else f1.handle },
   r.2)

/-! ### The reader (`SNFile.read_header` / `SNFile.read_blocks`) -/

/-- The parsed header record: the index plus opaque caller metadata.  The
index is contig-nested: contig → block id (as string) → ordered list of
(offset, length) ranges. -/
structure Header where
  index : List (String × List (String × List (Nat × Nat)))
  meta : List (String × String)
deriving DecidableEq, Repr

/-- The read-side state of an `SNFile`. -/
structure SNFileR where
  filename : String
  contents : List Nat
  header_length : Nat
  header : Option Header
  index : List (String × List (String × List (Nat × Nat)))
  handle : Bool
  combine_close_handles : Bool
deriving DecidableEq, Repr

/-- `if self.config.combine_close_handles: self.close()`. -/
def snfClose (fr : SNFileR) : SNFileR :=
  if fr.combine_close_handles then { fr with handle := false } else fr

/-- A freshly reopened file handle on stored contents (`SNFile.__init__`
followed by `open`-on-demand). -/
def reopen (filename : String) (contents : List Nat) (cch : Bool) : SNFileR :=
  ⟨filename, contents, 0, none, [], false, cch⟩

/-- `SNFile.read_header()` with JSON decoding abstract: read the first line,
record its exact byte length, parse it, and extract the index.  A parse
failure is reported with the file identity and re-raised. -/
def read_header (hDec : List Nat → Option Header) (fr : SNFileR) :
    SNFileR × Except String Header :=
  let fr := if fr.handle then fr else { fr with handle := true }
  let line := readLine fr.contents
  match hDec line with
  | none => ({ fr with header_length := line.length }, .error fr.filename)
  | some h =>
    (snfClose { fr with header_length := line.length, header := some h,
                        index := h.index },
     .ok h)

/-- A dynamically typed block-id argument to `read_blocks`. -/
inductive PyKey where
  | int (n : Int)
  | str (s : String)
deriving DecidableEq, Repr

/-- Python `str()` on a block-id argument. -/
def pyStr : PyKey → String
  | .int n => toString n
  | .str s => s

/-- The identity attached to a reported block decode failure. -/
structure BlockReadError where
  filename : String
  contig : String
  block : String
deriving DecidableEq, Repr

/-- Decoding one `(offset, length)` range: seek to
`header_length + offset`, read `length` bytes, gunzip, unpickle. -/
def decodeRange (gunzip : List Nat → Option (List Nat))
    (pload : List Nat → Option Block) (fr : SNFileR) (r : Nat × Nat) :
    Option Block :=
  (gunzip (pyRead fr.contents (fr.header_length + r.1) r.2)).bind pload

/-- The range loop of `read_blocks`: decode every registered range in index
order, failing the whole read on the first decode failure. -/
def read_ranges (gunzip : List Nat → Option (List Nat))
    (pload : List Nat → Option Block) (fr : SNFileR) (contig key : String) :
    List (Nat × Nat) → Except BlockReadError (List Block)
  | [] => .ok []
  | r :: rest =>
    match decodeRange gunzip pload fr r with
    | none => .error ⟨fr.filename, contig, key⟩
    | some blk =>
      match read_ranges gunzip pload fr contig key rest with
      | .error e => .error e
      | .ok bs => .ok (blk :: bs)

/-- `SNFile.read_blocks(contig, block_index)` with the gzip/pickle decoders
abstract.  Returns the updated handle state and either the decoded blocks,
`none` when the contig or block id is absent, or the reported error. -/
def read_blocks (gunzip : List Nat → Option (List Nat))
    (pload : List Nat → Option Block) (fr : SNFileR) (contig : String)
    (block_index : PyKey) :
    SNFileR × Except BlockReadError (Option (List Block)) :=
  let fr := if fr.handle then fr else { fr with handle := true }
  let key := pyStr block_index
  match alookup fr.index contig with
  | none => (snfClose fr, .ok none)
  | some sub =>
    match alookup sub key with
    | none => (snfClose fr, .ok none)
    | some ranges =>
      match read_ranges gunzip pload fr contig key ranges with
      | .error e => (snfClose fr, .error e)
      | .ok bs => (snfClose fr, .ok (some bs))

/-! ### File assembly (outside `snf.py`) -/

/-- Modelled from the spec: the assembly step outside this module that turns
the flat block-id-keyed index built by `write_and_index` into the
contig-nested, string-keyed index consumed by readers, with one
`[offset, length]` range per block id ("contig → block id → ordered list of
`[offset, length]` pairs"). -/
def nestIndex (contig : String) (wIdx : List (Nat × Nat × Nat)) :
    List (String × List (String × List (Nat × Nat))) :=
  [(contig, wIdx.map (fun e => (toString e.1, [e.2])))]

/-- The writer state and body bytes produced by storing `cs` and flushing. -/
def pipeW (cfg : Config) (cs : List SVCall) (gz : List Nat → List Nat)
    (pdump : Block → List Nat) : SNFileW × List Nat :=
  write_and_index gz pdump (storeAll cfg cs)

/-- Modelled from the spec: the header record materialized after all blocks
are written — "a mapping containing at least an `index` entry ... plus
arbitrary caller-supplied metadata". -/
def pipeHeader (cfg : Config) (cs : List SVCall) (contig : String)
    (meta : List (String × String)) (gz : List Nat → List Nat)
    (pdump : Block → List Nat) : Header :=
  ⟨nestIndex contig (pipeW cfg cs gz pdump).1.index, meta⟩

/-- Modelled from the spec: the final on-disk layout, "one header record"
followed by the "concatenation of compressed, encoded block payloads". -/
def pipeBytes (cfg : Config) (cs : List SVCall) (contig : String)
    (meta : List (String × String)) (gz : List Nat → List Nat)
    (pdump : Block → List Nat) (hEnc : Header → List Nat) : List Nat :=
  hEnc (pipeHeader cfg cs contig meta gz pdump) ++ (pipeW cfg cs gz pdump).2

/-- The handle obtained by reopening the stored file and reading its header. -/
def pipeReader (cfg : Config) (cs : List SVCall) (contig filename : String)
    (meta : List (String × String)) (gz : List Nat → List Nat)
    (pdump : Block → List Nat) (hEnc : Header → List Nat)
    (hDec : List Nat → Option Header) : SNFileR :=
  (read_header hDec
    (reopen filename (pipeBytes cfg cs contig meta gz pdump hEnc)
      cfg.combine_close_handles)).1

/-! ### The residency registry (`LazySNFile._ACTIVE`) -/

/-- `LazySNFile._MAX_ACTIVE`. -/
def MAX_ACTIVE : Nat := 50

/-- The process-wide residency registry: the `_ACTIVE` ordered dict as a
list of handle ids (least recently touched first), together with the set of
handles currently holding loaded header/index data. -/
structure CacheState where
  active : List Nat
  loaded : List Nat
deriving DecidableEq, Repr

/-- One `LazySNFile.read_header` call on handle `h`: move it to the
most-recent end (inserting if absent), load its header, and if the registry
now exceeds the cap, pop the least recently touched entry and unload it.
Returns the new state and the evicted handle, if any. -/
def touchStep (st : CacheState) (h : Nat) : CacheState × Option Nat :=
  let active := if h ∈ st.active then st.active.erase h ++ [h] else st.active ++ [h]
  let loaded := if h ∈ st.loaded then st.loaded else st.loaded ++ [h]
  if MAX_ACTIVE < active.length then
    match active with
    | [] => (⟨active, loaded⟩, none)
    | old :: rest => (⟨rest, loaded.erase old⟩, some old)
  else (⟨active, loaded⟩, none)

/-- The registry after a sequence of header/index accesses, from startup. -/
def runCache (seq : List Nat) : CacheState :=
  seq.foldl (fun st h => (touchStep st h).1) ⟨[], []⟩

/-- How recently `x` was last touched by `seq`: 0 means touched last;
larger means longer ago. -/
def recency (seq : List Nat) (x : Nat) : Nat := seq.reverse.indexOf x

/-- The registry invariant after the access sequence `seq`: no duplicate
registrations, the loaded set is exactly the registered set, the cap is
respected, and the registry is ordered from least to most recently
touched. -/
def cacheInv (seq : List Nat) (st : CacheState) : Prop :=
  st.active.Nodup ∧ st.loaded.Nodup ∧
  (∀ x, x ∈ st.loaded ↔ x ∈ st.active) ∧
  st.active.length ≤ MAX_ACTIVE ∧
  st.active.Pairwise (fun a b => recency seq b < recency seq a)

/-! ### The lazy file handle (`LazySNFile`) -/

/-- The per-object state of a `LazySNFile`: storage contents, device handle
state, accumulated write-side blocks, and the unloadable header/index. -/
structure LazyFile where
  filename : String
  contents : List Nat
  header_length : Nat
  header : Option Header
  index : Option (List (String × List (String × List (Nat × Nat))))
  blocks : List (Nat × Block)
  handle : Bool
  combine_close_handles : Bool
deriving DecidableEq, Repr

/-- `LazySNFile.unload()` together with its registry removal: drop the
references to header and index; everything else is untouched. -/
def LazyFile.unload (f : LazyFile) (reg : List Nat) (id : Nat) :
    LazyFile × List Nat :=
  ({ f with header := none, index := none },
   if id ∈ reg then reg.erase id else reg)

/-- The `SNFile.read_header` body on a lazy handle.  The device position is
reset to the file start before parsing (`self.handle.seek(0)`), so the line
is read from the start of the stored contents. -/
def LazyFile.read_header (hDec : List Nat → Option Header) (f : LazyFile) :
    LazyFile × Except String Header :=
  let f := if f.handle then f else { f with handle := true }
  let line := readLine f.contents
  match hDec line with
  | none => ({ f with header_length := line.length }, .error f.filename)
  | some h =>
    let f := { f with header_length := line.length, header := some h,
                      index := some h.index }
    (if f.combine_close_handles then { f with handle := false } else f, .ok h)

/-- The `LazySNFile.index` property: reload the header first when it has
been unloaded, then return the index. -/
def LazyFile.indexProp (hDec : List Nat → Option Header) (f : LazyFile) :
    LazyFile × Except String
      (Option (List (String × List (String × List (Nat × Nat))))) :=
  if f.header = none then
    match LazyFile.read_header hDec f with
    | (f, .error e) => (f, .error e)
    | (f, .ok _) => (f, .ok f.index)
  else (f, .ok f.index)

/-! ### Spec-side view of coverage combination -/

/-- The running forward+reverse depth reached at each of the remaining bins,
given the accumulated forward/reverse depths so far: the per-bin depth trace
the combine windows summarize. -/
def depthTrace (fwd rev : Nat → Option Int) (cf cr : Int) :
    List Nat → List (Nat × Int)
  | [] => []
  | b :: rest =>
    (b, stepTab fwd cf b + stepTab rev cr b) ::
      depthTrace fwd rev (stepTab fwd cf b) (stepTab rev cr b) rest

/-- The complete combine windows of a bin/depth trace: each window is a
maximal run of consecutive bins ending at a bin position evenly divisible by
the combine resolution; a trailing run with no such end is dropped. -/
def windows (R : Nat) : List (Nat × Int) → List (List (Nat × Int))
  | [] => []
  | p :: rest =>
    if p.1 % R = 0 then [p] :: windows R rest
    else
      match windows R rest with
      | [] => []
      | w :: ws => (p :: w) :: ws

/-- The bin position a window is flushed at: its last bin. -/
def windowPos (w : List (Nat × Int)) : Nat := ((w.map Prod.fst).getLast?).getD 0

/-- The total forward+reverse depth over a window. -/
def windowSum (w : List (Nat × Int)) : Int := (w.map Prod.snd).sum

/-- The coverage entry a window contributes: the ceiling average of its
depths over the number of bins in the window, attached under its flush bin
to the block holding that bin — omitted when the value is zero. -/
def windowEntry (B : Nat) (w : List (Nat × Int)) : List (Nat × Nat × Int) :=
  if 0 < ceilDiv (windowSum w) w.length then
    [(windowPos w / B * B, windowPos w, ceilDiv (windowSum w) w.length)]
  else []

/-- The coverage entries prescribed by the spec for a bin/depth trace. -/
def covSpecEntries (R B : Nat) (l : List (Nat × Int)) : List (Nat × Nat × Int) :=
  ((windows R l).map (windowEntry B)).flatten

/-- Intermediate view of the annotation loop over a bin/depth trace,
carrying the pending running sum `s` over `cnt` bins since the last flush. -/
def specFrom (R B : Nat) (s : Int) (cnt : Nat) :
    List (Nat × Int) → List (Nat × Nat × Int)
  | [] => []
  | p :: rest =>
    if p.1 % R = 0 then
      (if 0 < ceilDiv (s + p.2) (cnt + 1) then
        [(p.1 / B * B, p.1, ceilDiv (s + p.2) (cnt + 1))]
      else []) ++ specFrom R B 0 0 rest
    else specFrom R B (s + p.2) (cnt + 1) rest

/-- Window-level evaluation with a pending partial prefix (running sum `s`
over `cnt` bins) folded into the first window. -/
def specWindows (B : Nat) (s : Int) (cnt : Nat) :
    List (List (Nat × Int)) → List (Nat × Nat × Int)
  | [] => []
  | w :: ws =>
    (if 0 < ceilDiv (s + windowSum w) (cnt + w.length) then
      [(windowPos w / B * B, windowPos w,
        ceilDiv (s + windowSum w) (cnt + w.length))]
    else []) ++ specWindows B 0 0 ws

/-! ### Concrete instances exercising the operations -/

instance {ε α : Type} [DecidableEq ε] [DecidableEq α] :
    DecidableEq (Except ε α) := fun x y =>
  match x, y with
  | .error a, .error b =>
    if h : a = b then .isTrue (by rw [h]) else .isFalse (fun hc => h (by injection hc))
  | .ok a, .ok b =>
    if h : a = b then .isTrue (by rw [h]) else .isFalse (fun hc => h (by injection hc))
  | .error _, .ok _ => .isFalse (fun hc => by injection hc)
  | .ok _, .error _ => .isFalse (fun hc => by injection hc)

/-- A block-size-1000 configuration with read-name output disabled. -/
def cfg0 : Config := ⟨1000, 100, 500, false, false⟩

/-- The example from the spec: candidates at 100, 250, 1100 with tags INS, INS, DEL. -/
def cs0 : List SVCall :=
  [⟨100, .INS, some ["r1"]⟩, ⟨250, .INS, some ["r2"]⟩, ⟨1100, .DEL, some ["r3"]⟩]

/-- A toy pickle distinguishing the two blocks arising from `cs0`. -/
def pdump0 : Block → List Nat :=
  fun b => if b = specBlock cfg0 cs0 0 then [0] else [1]

/-- The inverse of `pdump0` on its two payloads. -/
def pload0 : List Nat → Option Block := fun l =>
  if l = [0] then some (specBlock cfg0 cs0 0)
  else if l = [1] then some (specBlock cfg0 cs0 1000) else none

/-- A toy compressor (the identity). -/
def gz0 : List Nat → List Nat := fun l => l

/-- The toy decompressor. -/
def gunzip0 : List Nat → Option (List Nat) := some

/-- The header materialized for the `cs0` pipeline. -/
def hdr0 : Header := pipeHeader cfg0 cs0 "chr1" [] gz0 pdump0

/-- A toy header encoder: a bare newline-terminated record. -/
def hEnc0 : Header → List Nat := fun _ => [10]

/-- The toy header decoder recovering `hdr0`. -/
def hDec0 : List Nat → Option Header := fun l => if l = [10] then some hdr0 else none

/-- The reopened reader over the stored `cs0` pipeline. -/
def reader0 : SNFileR :=
  pipeReader cfg0 cs0 "chr1" "sample.snf" [] gz0 pdump0 hEnc0 hDec0

/-- A configuration whose combine resolution is 500 over 100-unit bins. -/
def cfg1 : Config := ⟨1000, 100, 500, true, false⟩

/-- A forward depth table: one unit of depth entering at every bin up to 600. -/
def fwd1 : Nat → Option Int := fun b => if b ≤ 600 then some 1 else none

/-- An empty reverse depth table. -/
def rev1 : Nat → Option Int := fun _ => none

/-- A pickle whose payloads contain no newline byte. -/
def pdump4 : Block → List Nat := fun _ => [7, 7]

/-- A reader whose index holds two ranges for block "0" of contig "chr1". -/
def fr6 : SNFileR :=
  ⟨"bad.snf", [7, 8], 0, none, [("chr1", [("0", [(0, 1), (1, 1)])])], true, false⟩

/-- A decompressor accepting only the payload `[7]`. -/
def gunzip6 : List Nat → Option (List Nat) :=
  fun l => if l = [7] then some [7] else none

/-- An unpickler accepting only the payload `[7]`. -/
def pload6 : List Nat → Option Block :=
  fun l => if l = [7] then some Block.empty else none

/-- A small parsed header for the lazy-handle reload example. -/
def hdrL : Header := ⟨[("c", [("0", [(0, 1)])])], []⟩

/-- A header decoder recovering `hdrL` from the stored line. -/
def hDecL : List Nat → Option Header :=
  fun l => if l = [10] then some hdrL else none

/-- A lazy handle with loaded header/index, an open device and one buffered
block. -/
def lz0 : LazyFile :=
  ⟨"z.snf", [10], 1, some hdrL, some hdrL.index, [(0, Block.empty)], true, false⟩

/-! ### Association-list lemmas -/

theorem alookup_aset {α β : Type} [DecidableEq α] (l : List (α × β)) (k k' : α)
    (v : β) :
    alookup (aset l k v) k' = if k = k' then some v else alookup l k' := by
  induction l with
  | nil =>
    by_cases h : k = k' <;> simp [aset, alookup, h]
  | cons p rest ih =>
    obtain ⟨a, b⟩ := p
    by_cases hak : a = k
    · subst hak
      by_cases hkk : a = k' <;> simp [aset, alookup, hkk]
    · by_cases hk' : a = k'
      · subst hk'
        simp [aset, hak, alookup, if_neg (fun h : k = a => hak h.symm)]
      · simp [aset, hak, alookup, hk', ih]

theorem alookup_append {α β : Type} [DecidableEq α] (l₁ l₂ : List (α × β))
    (k : α) :
    alookup (l₁ ++ l₂) k =
      match alookup l₁ k with
      | some v => some v
      | none => alookup l₂ k := by
  induction l₁ with
  | nil => simp [alookup]
  | cons p rest ih =>
    by_cases h : p.1 = k <;> simp [alookup, h, ih]

theorem alookup_eq_none_iff {α β : Type} [DecidableEq α] (l : List (α × β))
    (k : α) :
    alookup l k = none ↔ k ∉ l.map Prod.fst := by
  induction l with
  | nil => simp [alookup]
  | cons p rest ih =>
    by_cases h : p.1 = k
    · subst h
      simp [alookup]
    · rw [List.map_cons]
      simp only [alookup, if_neg h, ih, List.mem_cons]
      constructor
      · intro hn hor
        rcases hor with h1 | h2
        · exact h h1.symm
        · exact hn h2
      · intro hn hm
        exact hn (Or.inr hm)

theorem mem_of_alookup_eq_some {α β : Type} [DecidableEq α]
    {l : List (α × β)} {k : α} {v : β} (h : alookup l k = some v) :
    (k, v) ∈ l := by
  induction l with
  | nil => simp [alookup] at h
  | cons p rest ih =>
    obtain ⟨a, b⟩ := p
    by_cases hk : a = k
    · subst hk
      simp [alookup] at h
      subst h
      exact List.mem_cons_self _ _
    · simp only [alookup, if_neg hk] at h
      exact List.mem_cons_of_mem _ (ih h)

theorem aset_fresh {α β : Type} [DecidableEq α] (l : List (α × β)) (k : α)
    (v : β) (h : k ∉ l.map Prod.fst) :
    aset l k v = l ++ [(k, v)] := by
  induction l with
  | nil => simp [aset]
  | cons p rest ih =>
    simp only [List.map_cons, List.mem_cons] at h
    push_neg at h
    have hne : ¬ p.1 = k := fun he => h.1 he.symm
    simp [aset, hne, ih h.2]

theorem aset_keys_of_mem {α β : Type} [DecidableEq α] (l : List (α × β))
    (k : α) (v : β) (h : k ∈ l.map Prod.fst) :
    (aset l k v).map Prod.fst = l.map Prod.fst := by
  induction l with
  | nil => simp at h
  | cons p rest ih =>
    by_cases hk : p.1 = k
    · simp [aset, hk]
    · simp only [List.map_cons, List.mem_cons] at h
      rcases h with h | h
      · exact absurd h.symm hk
      · simp [aset, hk, ih h]

/-! ### `store` fold characterization -/

theorem store_config (f : SNFileW) (c : SVCall) :
    (SNFile.store f c).config = f.config := rfl

theorem store_index (f : SNFileW) (c : SVCall) :
    (SNFile.store f c).index = f.index := rfl

theorem storeAll_append (cfg : Config) (cs : List SVCall) (c : SVCall) :
    storeAll cfg (cs ++ [c]) = SNFile.store (storeAll cfg cs) c := by
  simp [storeAll, List.foldl_append]

theorem storeAll_config (cfg : Config) (cs : List SVCall) :
    (storeAll cfg cs).config = cfg := by
  induction cs using List.reverseRecOn with
  | nil => rfl
  | append_singleton cs c ih => rw [storeAll_append, store_config, ih]

theorem storeAll_index (cfg : Config) (cs : List SVCall) :
    (storeAll cfg cs).index = [] := by
  induction cs using List.reverseRecOn with
  | nil => rfl
  | append_singleton cs c ih => rw [storeAll_append, store_index, ih]

theorem cleanse_svtype (cfg : Config) (c : SVCall) :
    (cleanse cfg c).svtype = c.svtype := by
  unfold cleanse
  split <;> rfl

theorem addCall_typesMap (F : SVType → List SVCall) (cov : List (Nat × Int))
    (t : SVType) (c : SVCall) :
    Block.addCall ⟨TYPES.map (fun u => (u, F u)), cov⟩ t c =
      ⟨TYPES.map (fun u => (u, if u = t then F u ++ [c] else F u)), cov⟩ := by
  cases t <;> rfl

theorem specBlock_not_mem (cfg : Config) (cs : List SVCall) (bid : Nat)
    (h : bid ∉ cs.map (blkId cfg)) :
    specBlock cfg cs bid = Block.empty := by
  unfold specBlock Block.empty
  congr 1
  refine congrArg (fun f => List.map f TYPES) (funext fun u => ?_)
  have : cs.filter (fun c => decide (blkId cfg c = bid ∧ c.svtype = u)) = [] := by
    rw [List.filter_eq_nil_iff]
    intro a ha
    simp only [decide_eq_true_eq, not_and]
    intro hb
    exact absurd (hb ▸ List.mem_map_of_mem (blkId cfg) ha) h
  rw [this]
  rfl

theorem specBlock_append (cfg : Config) (cs : List SVCall) (c : SVCall)
    (bid : Nat) :
    specBlock cfg (cs ++ [c]) bid =
      if blkId cfg c = bid then
        Block.addCall (specBlock cfg cs bid) c.svtype (cleanse cfg c)
      else specBlock cfg cs bid := by
  by_cases hbi : blkId cfg c = bid
  · rw [if_pos hbi]
    unfold specBlock
    rw [addCall_typesMap]
    congr 1
    refine congrArg (fun f => List.map f TYPES) (funext fun u => ?_)
    rw [List.filter_append]
    by_cases hu : u = c.svtype
    · have : List.filter (fun x => decide (blkId cfg x = bid ∧ x.svtype = u)) [c] = [c] := by
        simp [List.filter, hbi, hu]
      rw [this, if_pos hu, List.map_append]
      rfl
    · have : List.filter (fun x => decide (blkId cfg x = bid ∧ x.svtype = u)) [c] = [] := by
        simp [List.filter, Ne.symm hu]
      rw [this, if_neg hu, List.append_nil]
  · rw [if_neg hbi]
    unfold specBlock
    congr 1
    refine congrArg (fun f => List.map f TYPES) (funext fun u => ?_)
    rw [List.filter_append]
    have : List.filter (fun x => decide (blkId cfg x = bid ∧ x.svtype = u)) [c] = [] := by
      simp [List.filter, hbi]
    rw [this, List.append_nil]

theorem storeAll_lookup (cfg : Config) (cs : List SVCall) (bid : Nat) :
    alookup (storeAll cfg cs).blocks bid =
      if bid ∈ cs.map (blkId cfg) then some (specBlock cfg cs bid) else none := by
  induction cs using List.reverseRecOn generalizing bid with
  | nil => simp [storeAll, initW, alookup]
  | append_singleton cs c ih =>
    rw [storeAll_append]
    have hconf : (storeAll cfg cs).config = cfg := storeAll_config cfg cs
    have hbi : c.pos / (storeAll cfg cs).config.snf_block_size *
        (storeAll cfg cs).config.snf_block_size = blkId cfg c := by
      rw [hconf]
      rfl
    have hclean : (if (storeAll cfg cs).config.output_rnames then c
        else { c with rnames := none }) = cleanse cfg c := by
      rw [hconf]
      rfl
    by_cases hmem : blkId cfg c ∈ cs.map (blkId cfg)
    · have hlook : alookup (storeAll cfg cs).blocks (blkId cfg c) =
          some (specBlock cfg cs (blkId cfg c)) := by
        rw [ih, if_pos hmem]
      simp only [SNFile.store, hbi, hclean, hlook]
      rw [alookup_aset]
      by_cases hb : blkId cfg c = bid
      · subst hb
        have hmm : blkId cfg c ∈ (cs ++ [c]).map (blkId cfg) := by
          simp
        rw [if_pos rfl, if_pos hmm, specBlock_append, if_pos rfl,
          cleanse_svtype]
      · rw [if_neg hb, ih, specBlock_append, if_neg hb]
        by_cases hm : bid ∈ cs.map (blkId cfg)
        · have hmm : bid ∈ (cs ++ [c]).map (blkId cfg) := by
            simp only [List.map_append, List.mem_append]
            exact Or.inl hm
          rw [if_pos hm, if_pos hmm]
        · have hmm : bid ∉ (cs ++ [c]).map (blkId cfg) := by
            simp only [List.map_append, List.mem_append, List.map_cons,
              List.map_nil, List.mem_singleton]
            push_neg
            exact ⟨hm, fun h => hb h.symm⟩
          rw [if_neg hm, if_neg hmm]
    · have hlook : alookup (storeAll cfg cs).blocks (blkId cfg c) = none := by
        rw [ih, if_neg hmem]
      have h2 : alookup ((storeAll cfg cs).blocks ++ [(blkId cfg c, Block.empty)])
          (blkId cfg c) = some Block.empty := by
        rw [alookup_append, hlook]
        simp [alookup]
      simp only [SNFile.store, hbi, hclean, hlook, h2]
      rw [alookup_aset]
      by_cases hb : blkId cfg c = bid
      · subst hb
        have hmm : blkId cfg c ∈ (cs ++ [c]).map (blkId cfg) := by
          simp
        rw [if_pos rfl, if_pos hmm, specBlock_append, if_pos rfl,
          cleanse_svtype, specBlock_not_mem cfg cs _ hmem]
      · rw [if_neg hb, alookup_append, ih, specBlock_append, if_neg hb]
        by_cases hm : bid ∈ cs.map (blkId cfg)
        · rw [if_pos hm]
          have hmm : bid ∈ (cs ++ [c]).map (blkId cfg) := by
            simp only [List.map_append, List.mem_append]
            exact Or.inl hm
          rw [if_pos hmm]
        · rw [if_neg hm]
          have hmm : bid ∉ (cs ++ [c]).map (blkId cfg) := by
            simp only [List.map_append, List.mem_append, List.map_cons,
              List.map_nil, List.mem_singleton]
            push_neg
            exact ⟨hm, fun h => hb h.symm⟩
          rw [if_neg hmm]
          simp [alookup, hb]

theorem storeAll_keys_mem (cfg : Config) (cs : List SVCall) (bid : Nat) :
    bid ∈ (storeAll cfg cs).blocks.map Prod.fst ↔ bid ∈ cs.map (blkId cfg) := by
  have h := alookup_eq_none_iff (storeAll cfg cs).blocks bid
  rw [storeAll_lookup] at h
  by_cases hm : bid ∈ cs.map (blkId cfg)
  · rw [if_pos hm] at h
    refine ⟨fun _ => hm, fun _ => ?_⟩
    by_contra hk
    exact Option.some_ne_none _ (h.mpr hk)
  · rw [if_neg hm] at h
    exact ⟨fun hk => absurd hk (h.mp rfl), fun hk => absurd hk hm⟩

theorem store_keys (f : SNFileW) (c : SVCall) :
    (SNFile.store f c).blocks.map Prod.fst =
      if c.pos / f.config.snf_block_size * f.config.snf_block_size ∈
          f.blocks.map Prod.fst then
        f.blocks.map Prod.fst
      else
        f.blocks.map Prod.fst ++
          [c.pos / f.config.snf_block_size * f.config.snf_block_size] := by
  by_cases h : c.pos / f.config.snf_block_size * f.config.snf_block_size ∈
      f.blocks.map Prod.fst
  · obtain ⟨v, hv⟩ : ∃ v, alookup f.blocks
        (c.pos / f.config.snf_block_size * f.config.snf_block_size) = some v := by
      cases hl : alookup f.blocks
          (c.pos / f.config.snf_block_size * f.config.snf_block_size) with
      | none => exact absurd h ((alookup_eq_none_iff _ _).mp hl)
      | some v => exact ⟨v, rfl⟩
    simp only [SNFile.store, hv]
    rw [if_pos h, aset_keys_of_mem _ _ _ h]
  · have hl : alookup f.blocks
        (c.pos / f.config.snf_block_size * f.config.snf_block_size) = none :=
      (alookup_eq_none_iff _ _).mpr h
    have h2 : alookup (f.blocks ++
        [(c.pos / f.config.snf_block_size * f.config.snf_block_size,
          Block.empty)])
        (c.pos / f.config.snf_block_size * f.config.snf_block_size) =
        some Block.empty := by
      rw [alookup_append, hl]
      simp [alookup]
    simp only [SNFile.store, hl, h2]
    rw [if_neg h]
    have hmem : c.pos / f.config.snf_block_size * f.config.snf_block_size ∈
        (f.blocks ++ [(c.pos / f.config.snf_block_size * f.config.snf_block_size,
          Block.empty)]).map Prod.fst := by
      simp
    rw [aset_keys_of_mem _ _ _ hmem, List.map_append]
    rfl

theorem storeAll_keys_nodup (cfg : Config) (cs : List SVCall) :
    ((storeAll cfg cs).blocks.map Prod.fst).Nodup := by
  induction cs using List.reverseRecOn with
  | nil => simp [storeAll, initW]
  | append_singleton cs c ih =>
    rw [storeAll_append, store_keys]
    by_cases h : c.pos / (storeAll cfg cs).config.snf_block_size *
        (storeAll cfg cs).config.snf_block_size ∈
        (storeAll cfg cs).blocks.map Prod.fst
    · rw [if_pos h]
      exact ih
    · rw [if_neg h]
      simp [List.nodup_append, ih, h]

/-! ### `write_and_index` lemmas -/

theorem wiLoop_bytes (chunk : Nat → List Nat) (ids : List Nat) (off : Nat) :
    (wiLoop chunk ids off).2 = (ids.map chunk).flatten := by
  induction ids generalizing off with
  | nil => simp [wiLoop]
  | cons bid rest ih => simp [wiLoop, ih]

theorem wiLoop_keys (chunk : Nat → List Nat) (ids : List Nat) (off : Nat) :
    (wiLoop chunk ids off).1.map Prod.fst = ids := by
  induction ids generalizing off with
  | nil => simp [wiLoop]
  | cons bid rest ih => simp [wiLoop, ih]

theorem wiLoop_lookup (chunk : Nat → List Nat) (l1 l2 : List Nat) (bid : Nat)
    (off : Nat) (h : bid ∉ l1) :
    alookup (wiLoop chunk (l1 ++ bid :: l2) off).1 bid =
      some (off + ((l1.map chunk).map List.length).sum, (chunk bid).length) := by
  induction l1 generalizing off with
  | nil => simp [wiLoop, alookup]
  | cons a rest ih =>
    simp only [List.mem_cons] at h
    push_neg at h
    simp only [List.cons_append, wiLoop, alookup, List.append_eq]
    rw [if_neg (fun he : a = bid => h.1 he.symm)]
    rw [ih _ h.2, List.map_cons, List.map_cons, List.sum_cons]
    ring_nf

theorem foldl_aset_append {α β : Type} [DecidableEq α] (entries l : List (α × β))
    (h : ∀ e ∈ entries, e.1 ∉ l.map Prod.fst)
    (hn : (entries.map Prod.fst).Nodup) :
    List.foldl (fun ix e => aset ix e.1 e.2) l entries = l ++ entries := by
  induction entries generalizing l with
  | nil => simp
  | cons e rest ih =>
    simp only [List.foldl_cons]
    rw [aset_fresh _ _ _ (h e (List.mem_cons_self _ _))]
    rw [ih (l ++ [(e.1, e.2)])]
    · simp
    · intro e' he'
      simp only [List.map_append, List.mem_append]
      push_neg
      refine ⟨h e' (List.mem_cons_of_mem _ he'), ?_⟩
      simp only [List.map_cons, List.map_nil, List.mem_singleton]
      intro hc
      rw [List.map_cons, List.nodup_cons] at hn
      exact hn.1 (hc ▸ List.mem_map_of_mem Prod.fst he')
    · rw [List.map_cons, List.nodup_cons] at hn
      exact hn.2

theorem serialize_block_toggle (pdump : Block → List Nat) (f : SNFileW) :
    serialize_block pdump (if f.handle then f else { f with handle := true }) =
      serialize_block pdump f := by
  funext bid
  by_cases h : f.handle
  · rw [if_pos h]
  · rw [if_neg h]
    rfl

theorem write_and_index_snd (gz : List Nat → List Nat) (pdump : Block → List Nat)
    (f : SNFileW) :
    (write_and_index gz pdump f).2 =
      (wiLoop (fun bid => gz (serialize_block pdump f bid))
        ((f.blocks.map Prod.fst).insertionSort (· ≤ ·)) 0).2 := by
  by_cases h : f.handle <;> simp [write_and_index, h, serialize_block]

theorem write_and_index_fst_index (gz : List Nat → List Nat)
    (pdump : Block → List Nat) (f : SNFileW) :
    (write_and_index gz pdump f).1.index =
      ((wiLoop (fun bid => gz (serialize_block pdump f bid))
        ((f.blocks.map Prod.fst).insertionSort (· ≤ ·)) 0).1).foldl
        (fun ix e => aset ix e.1 e.2) f.index := by
  by_cases h : f.handle <;> simp [write_and_index, h, serialize_block]

theorem write_and_index_index_list (gz : List Nat → List Nat)
    (pdump : Block → List Nat) (f : SNFileW)
    (hnd : (f.blocks.map Prod.fst).Nodup) (hix : f.index = []) :
    (write_and_index gz pdump f).1.index =
      (wiLoop (fun bid => gz (serialize_block pdump f bid))
        ((f.blocks.map Prod.fst).insertionSort (· ≤ ·)) 0).1 := by
  rw [write_and_index_fst_index, hix]
  have hperm := List.perm_insertionSort (· ≤ ·) (f.blocks.map Prod.fst)
  have hkeys := wiLoop_keys (fun bid => gz (serialize_block pdump f bid))
    ((f.blocks.map Prod.fst).insertionSort (· ≤ ·)) 0
  rw [foldl_aset_append]
  · simp
  · intro e _
    simp
  · rw [hkeys]
    exact hperm.symm.nodup hnd

/-- The byte range recorded for a present block id: its payload length, at
the offset given by the total payload length of all smaller block ids. -/
theorem write_and_index_lookup (gz : List Nat → List Nat)
    (pdump : Block → List Nat) (f : SNFileW)
    (hnd : (f.blocks.map Prod.fst).Nodup) (hix : f.index = [])
    (bid : Nat) (hmem : bid ∈ f.blocks.map Prod.fst) :
    alookup (write_and_index gz pdump f).1.index bid =
      some ((((f.blocks.map Prod.fst).filter (fun b => decide (b < bid))).map
              (fun b => (gz (serialize_block pdump f b)).length)).sum,
            (gz (serialize_block pdump f bid)).length) := by
  rw [write_and_index_index_list gz pdump f hnd hix]
  set chunk := fun bid => gz (serialize_block pdump f bid) with hchunk
  set ids := (f.blocks.map Prod.fst).insertionSort (· ≤ ·) with hids
  have hperm : ids.Perm (f.blocks.map Prod.fst) :=
    List.perm_insertionSort (· ≤ ·) (f.blocks.map Prod.fst)
  have hnodup : ids.Nodup := hperm.symm.nodup hnd
  have hsorted : ids.Sorted (· ≤ ·) :=
    List.sorted_insertionSort (· ≤ ·) (f.blocks.map Prod.fst)
  have hlt : ids.Sorted (· < ·) := hsorted.lt_of_le hnodup
  have hbid : bid ∈ ids := hperm.symm.subset hmem
  obtain ⟨l1, l2, hdecomp⟩ := List.append_of_mem hbid
  have hl1nodup : l1.Nodup := by
    have := hdecomp ▸ hnodup
    exact (List.nodup_append.mp this).1
  have hdisj : l1.Disjoint (bid :: l2) := by
    have := hdecomp ▸ hnodup
    exact (List.nodup_append.mp this).2.2
  have hnot : bid ∉ l1 := fun hc => hdisj hc (List.mem_cons_self _ _)
  have hpw := hdecomp ▸ hlt
  rw [List.Sorted, List.pairwise_append] at hpw
  have hsmall : ∀ x ∈ l1, x < bid :=
    fun x hx => hpw.2.2 x hx bid (List.mem_cons_self _ _)
  have hbig : ∀ y ∈ l2, bid < y := by
    have := hpw.2.1
    rw [List.pairwise_cons] at this
    exact this.1
  rw [hdecomp, wiLoop_lookup _ _ _ _ _ hnot, Nat.zero_add]
  have hsum : ((l1.map chunk).map List.length).sum =
      (((f.blocks.map Prod.fst).filter (fun b => decide (b < bid))).map
        (fun b => (chunk b).length)).sum := by
    have hform : ∀ l : List Nat, ((l.map chunk).map List.length).sum =
        (l.map (fun b => (chunk b).length)).sum := by
      intro l
      rw [List.map_map]
      rfl
    rw [hform]
    refine List.Perm.sum_eq (List.Perm.map _ ?_)
    have hmemiff : ∀ x, x ∈ l1 ↔
        x ∈ (f.blocks.map Prod.fst).filter (fun b => decide (b < bid)) := by
      intro x
      rw [List.mem_filter]
      constructor
      · intro hx
        refine ⟨hperm.subset (hdecomp ▸ List.mem_append_left _ hx), ?_⟩
        simp [hsmall x hx]
      · rintro ⟨hx, hxlt⟩
        simp only [decide_eq_true_eq] at hxlt
        have hxid : x ∈ ids := hperm.symm.subset hx
        rw [hdecomp, List.mem_append, List.mem_cons] at hxid
        rcases hxid with h | h | h
        · exact h
        · exact absurd (h ▸ hxlt) (lt_irrefl _)
        · exact absurd hxlt (not_lt_of_gt (hbig x h))
    exact (List.perm_ext_iff_of_nodup hl1nodup
      (List.Nodup.filter _ hnd)).mpr hmemiff
  rw [hsum]

/-! ### Read-path lemmas -/

theorem readLine_append (pre rest : List Nat) (h : 10 ∉ pre) :
    readLine (pre ++ 10 :: rest) = pre ++ [10] := by
  induction pre with
  | nil => simp [readLine]
  | cons b bs ih =>
    simp only [List.mem_cons] at h
    push_neg at h
    simp [readLine, Ne.symm h.1, ih h.2]

theorem pyRead_header_skip (hb body : List Nat) (off len : Nat) :
    pyRead (hb ++ body) (hb.length + off) len = pyRead body off len := by
  unfold pyRead
  rw [List.drop_append]

theorem flatten_slice (chunk : Nat → List Nat) (l1 l2 : List Nat) (bid : Nat) :
    pyRead (((l1 ++ bid :: l2).map chunk).flatten)
      ((l1.map (fun b => (chunk b).length)).sum) (chunk bid).length =
      chunk bid := by
  rw [List.map_append, List.flatten_append, List.map_cons, List.flatten_cons]
  have hlen : (l1.map (fun b => (chunk b).length)).sum =
      ((l1.map chunk).flatten).length := by
    rw [List.length_flatten, List.map_map]
    rfl
  unfold pyRead
  rw [hlen, List.drop_left, List.take_left]

theorem alookup_map_str {β γ : Type} (g : Nat → String) (h : β → γ)
    (l : List (Nat × β)) (k : Nat)
    (hinj : ∀ e ∈ l, g e.1 = g k → e.1 = k) :
    alookup (l.map (fun e => (g e.1, h e.2))) (g k) =
      (alookup l k).map h := by
  induction l with
  | nil => simp [alookup]
  | cons p rest ih =>
    by_cases hk : p.1 = k
    · simp [alookup, hk]
    · have hg : ¬ g p.1 = g k :=
        fun hgg => hk (hinj p (List.mem_cons_self _ _) hgg)
      simp only [List.map_cons, alookup, if_neg hg, if_neg hk]
      exact ih (fun e he hgg => hinj e (List.mem_cons_of_mem _ he) hgg)

theorem read_ranges_single (gunzip : List Nat → Option (List Nat))
    (pload : List Nat → Option Block) (fr : SNFileR) (contig key : String)
    (r : Nat × Nat) (blk : Block)
    (h : decodeRange gunzip pload fr r = some blk) :
    read_ranges gunzip pload fr contig key [r] = .ok [blk] := by
  simp [read_ranges, h]

theorem read_ranges_error (gunzip : List Nat → Option (List Nat))
    (pload : List Nat → Option Block) (fr : SNFileR) (contig key : String)
    (ranges : List (Nat × Nat))
    (h : ∃ r ∈ ranges, decodeRange gunzip pload fr r = none) :
    read_ranges gunzip pload fr contig key ranges =
      .error ⟨fr.filename, contig, key⟩ := by
  induction ranges with
  | nil => simp at h
  | cons r rest ih =>
    obtain ⟨r', hr', hfail⟩ := h
    rcases List.mem_cons.mp hr' with he | hm
    · subst he
      simp [read_ranges, hfail]
    · cases hd : decodeRange gunzip pload fr r with
      | none => simp [read_ranges, hd]
      | some blk => simp [read_ranges, hd, ih ⟨r', hm, hfail⟩]

theorem snfClose_filename (fr : SNFileR) : (snfClose fr).filename = fr.filename := by
  unfold snfClose
  split <;> rfl

theorem snfClose_contents (fr : SNFileR) : (snfClose fr).contents = fr.contents := by
  unfold snfClose
  split <;> rfl

theorem snfClose_header_length (fr : SNFileR) :
    (snfClose fr).header_length = fr.header_length := by
  unfold snfClose
  split <;> rfl

theorem snfClose_index (fr : SNFileR) : (snfClose fr).index = fr.index := by
  unfold snfClose
  split <;> rfl

theorem read_header_on (filename : String) (body : List Nat) (cch : Bool)
    (hDec : List Nat → Option Header) (hdr : Header) (pre : List Nat)
    (hpre : 10 ∉ pre) (hdec : hDec (pre ++ [10]) = some hdr) :
    read_header hDec (reopen filename ((pre ++ [10]) ++ body) cch) =
      (snfClose ⟨filename, (pre ++ [10]) ++ body, (pre ++ [10]).length,
        some hdr, hdr.index, true, cch⟩, .ok hdr) := by
  simp [read_header, reopen, readLine_append pre body hpre, hdec]

theorem decodeRange_set_handle (gunzip : List Nat → Option (List Nat))
    (pload : List Nat → Option Block) (fr : SNFileR) (r : Nat × Nat) (b : Bool) :
    decodeRange gunzip pload { fr with handle := b } r =
      decodeRange gunzip pload fr r := rfl

theorem read_ranges_set_handle (gunzip : List Nat → Option (List Nat))
    (pload : List Nat → Option Block) (fr : SNFileR) (contig key : String)
    (rs : List (Nat × Nat)) (b : Bool) :
    read_ranges gunzip pload { fr with handle := b } contig key rs =
      read_ranges gunzip pload fr contig key rs := by
  induction rs with
  | nil => rfl
  | cons r rest ih =>
    simp only [read_ranges, decodeRange_set_handle, ih]

theorem read_ranges_snfClose (gunzip : List Nat → Option (List Nat))
    (pload : List Nat → Option Block) (fr : SNFileR) (contig key : String)
    (rs : List (Nat × Nat)) :
    read_ranges gunzip pload (snfClose fr) contig key rs =
      read_ranges gunzip pload fr contig key rs := by
  unfold snfClose
  split
  · exact read_ranges_set_handle gunzip pload fr contig key rs false
  · rfl

theorem read_blocks_snd_contig_none (gunzip : List Nat → Option (List Nat))
    (pload : List Nat → Option Block) (fr : SNFileR) (contig : String)
    (k : PyKey) (h : alookup fr.index contig = none) :
    (read_blocks gunzip pload fr contig k).2 = .ok none := by
  by_cases hh : fr.handle <;> simp [read_blocks, hh, h]

theorem read_blocks_snd_block_none (gunzip : List Nat → Option (List Nat))
    (pload : List Nat → Option Block) (fr : SNFileR) (contig : String)
    (k : PyKey) (sub : List (String × List (Nat × Nat)))
    (h1 : alookup fr.index contig = some sub)
    (h2 : alookup sub (pyStr k) = none) :
    (read_blocks gunzip pload fr contig k).2 = .ok none := by
  by_cases hh : fr.handle <;> simp [read_blocks, hh, h1, h2]

theorem read_blocks_snd_ranges (gunzip : List Nat → Option (List Nat))
    (pload : List Nat → Option Block) (fr : SNFileR) (contig : String)
    (k : PyKey) (sub : List (String × List (Nat × Nat)))
    (ranges : List (Nat × Nat))
    (h1 : alookup fr.index contig = some sub)
    (h2 : alookup sub (pyStr k) = some ranges) :
    (read_blocks gunzip pload fr contig k).2 =
      match read_ranges gunzip pload fr contig (pyStr k) ranges with
      | .error e => .error e
      | .ok bs => .ok (some bs) := by
  by_cases hh : fr.handle <;>
    simp [read_blocks, hh, h1, h2, read_ranges_set_handle] <;>
    cases read_ranges gunzip pload fr contig (pyStr k) ranges <;> rfl

theorem sorted_decomp (keys : List Nat) (hnd : keys.Nodup) (bid : Nat)
    (hmem : bid ∈ keys) :
    ∃ l1 l2, keys.insertionSort (· ≤ ·) = l1 ++ bid :: l2 ∧ bid ∉ l1 ∧
      ∀ g : Nat → Nat, (l1.map g).sum =
        ((keys.filter (fun b => decide (b < bid))).map g).sum := by
  have hperm : (keys.insertionSort (· ≤ ·)).Perm keys :=
    List.perm_insertionSort (· ≤ ·) keys
  have hnodup : (keys.insertionSort (· ≤ ·)).Nodup := hperm.symm.nodup hnd
  have hsorted : (keys.insertionSort (· ≤ ·)).Sorted (· ≤ ·) :=
    List.sorted_insertionSort (· ≤ ·) keys
  have hlt : (keys.insertionSort (· ≤ ·)).Sorted (· < ·) :=
    hsorted.lt_of_le hnodup
  obtain ⟨l1, l2, hdecomp⟩ := List.append_of_mem (hperm.symm.subset hmem)
  refine ⟨l1, l2, hdecomp, ?_, ?_⟩
  · have hdisj := (List.nodup_append.mp (hdecomp ▸ hnodup)).2.2
    exact fun hc => hdisj hc (List.mem_cons_self _ _)
  · intro g
    have hl1nodup : l1.Nodup := (List.nodup_append.mp (hdecomp ▸ hnodup)).1
    have hpw := hdecomp ▸ hlt
    rw [List.Sorted, List.pairwise_append] at hpw
    have hsmall : ∀ x ∈ l1, x < bid :=
      fun x hx => hpw.2.2 x hx bid (List.mem_cons_self _ _)
    have hbig : ∀ y ∈ l2, bid < y := by
      have := hpw.2.1
      rw [List.pairwise_cons] at this
      exact this.1
    refine List.Perm.sum_eq (List.Perm.map _ ?_)
    have hmemiff : ∀ x, x ∈ l1 ↔
        x ∈ keys.filter (fun b => decide (b < bid)) := by
      intro x
      rw [List.mem_filter]
      constructor
      · intro hx
        refine ⟨hperm.subset (hdecomp ▸ List.mem_append_left _ hx), ?_⟩
        simp [hsmall x hx]
      · rintro ⟨hx, hxlt⟩
        simp only [decide_eq_true_eq] at hxlt
        have hxid := hperm.symm.subset hx
        rw [hdecomp, List.mem_append, List.mem_cons] at hxid
        rcases hxid with h | h | h
        · exact h
        · exact absurd (h ▸ hxlt) (lt_irrefl _)
        · exact absurd hxlt (not_lt_of_gt (hbig x h))
    exact (List.perm_ext_iff_of_nodup hl1nodup
      (List.Nodup.filter _ hnd)).mpr hmemiff

/-- Reading back the byte range recorded for a block id from the written
body recovers exactly the compressed payload of that block. -/
theorem write_body_read (gz : List Nat → List Nat) (pdump : Block → List Nat)
    (f : SNFileW) (hnd : (f.blocks.map Prod.fst).Nodup) (bid : Nat)
    (hmem : bid ∈ f.blocks.map Prod.fst) :
    pyRead (write_and_index gz pdump f).2
      ((((f.blocks.map Prod.fst).filter (fun b => decide (b < bid))).map
        (fun b => (gz (serialize_block pdump f b)).length)).sum)
      ((gz (serialize_block pdump f bid)).length) =
      gz (serialize_block pdump f bid) := by
  rw [write_and_index_snd, wiLoop_bytes]
  obtain ⟨l1, l2, hdecomp, _, hsum⟩ := sorted_decomp (f.blocks.map Prod.fst)
    hnd bid hmem
  rw [hdecomp, ← hsum (fun b => (gz (serialize_block pdump f b)).length)]
  exact flatten_slice (fun b => gz (serialize_block pdump f b)) l1 l2 bid

theorem alookup_nest (l : List (Nat × (Nat × Nat))) (k : Nat)
    (hinj : ∀ e ∈ l, toString e.1 = toString k → e.1 = k) :
    alookup (l.map (fun e => (toString e.1, [e.2]))) (toString k) =
      (alookup l k).map (fun v => [v]) := by
  induction l with
  | nil => simp [alookup]
  | cons p rest ih =>
    by_cases hk : p.1 = k
    · simp [alookup, hk]
    · have hg : ¬ toString p.1 = toString k :=
        fun hgg => hk (hinj p (List.mem_cons_self _ _) hgg)
      simp only [List.map_cons, alookup, if_neg hg, if_neg hk]
      exact ih (fun e he => hinj e (List.mem_cons_of_mem _ he))

/-- Store → flush → materialize → reopen → `read_blocks` round trip: every
stored block id reads back as exactly the block that `store` grouped for it. -/
theorem pipe_read_blocks (cfg : Config) (cs : List SVCall)
    (contig filename : String) (meta : List (String × String))
    (gz : List Nat → List Nat) (pdump : Block → List Nat)
    (gunzip : List Nat → Option (List Nat)) (pload : List Nat → Option Block)
    (hEnc : Header → List Nat) (hDec : List Nat → Option Header)
    (pre : List Nat)
    (hstr : (((storeAll cfg cs).blocks.map Prod.fst).map
        (fun n => toString n)).Nodup)
    (hcodec : ∀ e ∈ (storeAll cfg cs).blocks,
        gunzip (gz (pdump e.2)) = some (pdump e.2) ∧
        pload (pdump e.2) = some e.2)
    (henc : hEnc (pipeHeader cfg cs contig meta gz pdump) = pre ++ [10])
    (hpre : 10 ∉ pre)
    (hdec : hDec (pre ++ [10]) = some (pipeHeader cfg cs contig meta gz pdump))
    (bid : Nat) (hbid : bid ∈ cs.map (blkId cfg)) :
    (read_blocks gunzip pload
        (pipeReader cfg cs contig filename meta gz pdump hEnc hDec) contig
        (.int (bid : Int))).2 = .ok (some [specBlock cfg cs bid]) := by
  have hnd := storeAll_keys_nodup cfg cs
  have hix := storeAll_index cfg cs
  have hmemk : bid ∈ (storeAll cfg cs).blocks.map Prod.fst :=
    (storeAll_keys_mem cfg cs bid).mpr hbid
  have hlook : alookup (storeAll cfg cs).blocks bid =
      some (specBlock cfg cs bid) := by
    rw [storeAll_lookup, if_pos hbid]
  have hserial : serialize_block pdump (storeAll cfg cs) bid =
      pdump (specBlock cfg cs bid) := by
    unfold serialize_block
    rw [hlook]
    rfl
  have hreader : pipeReader cfg cs contig filename meta gz pdump hEnc hDec =
      snfClose ⟨filename, (pre ++ [10]) ++ (pipeW cfg cs gz pdump).2,
        (pre ++ [10]).length, some (pipeHeader cfg cs contig meta gz pdump),
        (pipeHeader cfg cs contig meta gz pdump).index, true,
        cfg.combine_close_handles⟩ := by
    unfold pipeReader pipeBytes
    rw [henc,
      read_header_on filename _ cfg.combine_close_handles hDec _ pre hpre hdec]
  rw [hreader]
  have hwidx : (pipeW cfg cs gz pdump).1.index =
      (wiLoop (fun b => gz (serialize_block pdump (storeAll cfg cs) b))
        (((storeAll cfg cs).blocks.map Prod.fst).insertionSort (· ≤ ·)) 0).1 :=
    write_and_index_index_list gz pdump _ hnd hix
  have hperm := List.perm_insertionSort (· ≤ ·)
    ((storeAll cfg cs).blocks.map Prod.fst)
  have hinj : ∀ e ∈ (pipeW cfg cs gz pdump).1.index,
      toString e.1 = toString bid → e.1 = bid := by
    intro e he heq
    have hstr2 : ((((storeAll cfg cs).blocks.map Prod.fst).insertionSort
        (· ≤ ·)).map (fun n => toString n)).Nodup :=
      (List.Perm.map (fun n => toString n) hperm).symm.nodup hstr
    have hein : e.1 ∈ ((storeAll cfg cs).blocks.map Prod.fst).insertionSort
        (· ≤ ·) := by
      have := List.mem_map_of_mem Prod.fst (hwidx ▸ he)
      rwa [wiLoop_keys] at this
    have hbin : bid ∈ ((storeAll cfg cs).blocks.map Prod.fst).insertionSort
        (· ≤ ·) := hperm.symm.subset hmemk
    exact List.inj_on_of_nodup_map hstr2 hein hbin heq
  have h1 : alookup (snfClose ⟨filename,
      (pre ++ [10]) ++ (pipeW cfg cs gz pdump).2,
      (pre ++ [10]).length, some (pipeHeader cfg cs contig meta gz pdump),
      (pipeHeader cfg cs contig meta gz pdump).index, true,
      cfg.combine_close_handles⟩).index contig =
      some ((pipeW cfg cs gz pdump).1.index.map
        (fun e => (toString e.1, [e.2]))) := by
    rw [snfClose_index]
    simp [pipeHeader, nestIndex, alookup]
  have hwl := write_and_index_lookup gz pdump (storeAll cfg cs) hnd hix bid hmemk
  have h2 : alookup ((pipeW cfg cs gz pdump).1.index.map
      (fun e => (toString e.1, [e.2]))) (pyStr (.int (bid : Int))) =
      some [(((((storeAll cfg cs).blocks.map Prod.fst).filter
          (fun b => decide (b < bid))).map
          (fun b => (gz (serialize_block pdump (storeAll cfg cs) b)).length)).sum,
        (gz (serialize_block pdump (storeAll cfg cs) bid)).length)] := by
    have hps : pyStr (.int (bid : Int)) = toString bid := rfl
    rw [hps, alookup_nest _ _ hinj]
    unfold pipeW
    rw [hwl]
    rfl
  rw [read_blocks_snd_ranges gunzip pload _ contig _ _ _ h1 h2]
  have hdecode : decodeRange gunzip pload ⟨filename,
      (pre ++ [10]) ++ (pipeW cfg cs gz pdump).2,
      (pre ++ [10]).length, some (pipeHeader cfg cs contig meta gz pdump),
      (pipeHeader cfg cs contig meta gz pdump).index, true,
      cfg.combine_close_handles⟩
      (((((storeAll cfg cs).blocks.map Prod.fst).filter
          (fun b => decide (b < bid))).map
          (fun b => (gz (serialize_block pdump (storeAll cfg cs) b)).length)).sum,
        (gz (serialize_block pdump (storeAll cfg cs) bid)).length) =
      some (specBlock cfg cs bid) := by
    unfold decodeRange
    have hskip := pyRead_header_skip (pre ++ [10]) (pipeW cfg cs gz pdump).2
      (((((storeAll cfg cs).blocks.map Prod.fst).filter
          (fun b => decide (b < bid))).map
          (fun b => (gz (serialize_block pdump (storeAll cfg cs) b)).length)).sum)
      ((gz (serialize_block pdump (storeAll cfg cs) bid)).length)
    dsimp only
    rw [hskip]
    have hbody : (pipeW cfg cs gz pdump).2 =
        (write_and_index gz pdump (storeAll cfg cs)).2 := rfl
    rw [hbody, write_body_read gz pdump (storeAll cfg cs) hnd bid hmemk,
      hserial]
    have he := hcodec (bid, specBlock cfg cs bid) (mem_of_alookup_eq_some hlook)
    rw [he.1]
    simpa using he.2
  rw [read_ranges_snfClose,
    read_ranges_single gunzip pload _ contig _ _ _ hdecode]

/-! ### Coverage combination equivalence -/

theorem windowPos_cons (p : Nat × Int) (w : List (Nat × Int)) (h : w ≠ []) :
    windowPos (p :: w) = windowPos w := by
  obtain ⟨q, w', rfl⟩ := List.exists_cons_of_ne_nil h
  unfold windowPos
  rw [List.map_cons, List.map_cons, List.getLast?_cons_cons]

theorem windowSum_cons (p : Nat × Int) (w : List (Nat × Int)) :
    windowSum (p :: w) = p.2 + windowSum w := by
  unfold windowSum
  rw [List.map_cons, List.sum_cons]

theorem windows_ne_nil (R : Nat) (l : List (Nat × Int)) :
    ∀ w ∈ windows R l, w ≠ [] := by
  induction l with
  | nil => simp [windows]
  | cons p rest ih =>
    intro w hw
    unfold windows at hw
    by_cases hp : p.1 % R = 0
    · rw [if_pos hp] at hw
      rcases List.mem_cons.mp hw with he | hm
      · subst he
        simp
      · exact ih w hm
    · rw [if_neg hp] at hw
      cases hrec : windows R rest with
      | nil =>
        rw [hrec] at hw
        simp at hw
      | cons w' ws =>
        rw [hrec] at hw
        rcases List.mem_cons.mp hw with he | hm
        · subst he
          simp
        · refine ih w ?_
          rw [hrec]
          exact List.mem_cons_of_mem _ hm

theorem windows_pos_mod (R : Nat) (l : List (Nat × Int)) :
    ∀ w ∈ windows R l, windowPos w % R = 0 := by
  induction l with
  | nil => simp [windows]
  | cons p rest ih =>
    intro w hw
    unfold windows at hw
    by_cases hp : p.1 % R = 0
    · rw [if_pos hp] at hw
      rcases List.mem_cons.mp hw with he | hm
      · subst he
        simpa [windowPos] using hp
      · exact ih w hm
    · rw [if_neg hp] at hw
      cases hrec : windows R rest with
      | nil =>
        rw [hrec] at hw
        simp at hw
      | cons w' ws =>
        rw [hrec] at hw
        have hw' : w' ∈ windows R rest := by
          rw [hrec]
          exact List.mem_cons_self _ _
        rcases List.mem_cons.mp hw with he | hm
        · subst he
          rw [windowPos_cons p w' (windows_ne_nil R rest w' hw')]
          exact ih w' hw'
        · refine ih w ?_
          rw [hrec]
          exact List.mem_cons_of_mem _ hm

theorem annotateLoop_eq_specFrom (R B : Nat) (fwd rev : Nat → Option Int)
    (bins : List Nat) : ∀ (cf cr s : Int) (cnt : Nat),
    (annotateLoop R B fwd rev bins cf cr s cnt).1 =
      specFrom R B s cnt (depthTrace fwd rev cf cr bins) := by
  induction bins with
  | nil =>
    intro cf cr s cnt
    rfl
  | cons b rest ih =>
    intro cf cr s cnt
    simp only [annotateLoop, depthTrace, specFrom]
    have hassoc : s + stepTab fwd cf b + stepTab rev cr b =
        s + (stepTab fwd cf b + stepTab rev cr b) := by ring
    by_cases hb : b % R = 0
    · rw [if_pos hb, if_pos hb]
      dsimp only
      rw [ih, hassoc]
    · rw [if_neg hb, if_neg hb]
      rw [ih, hassoc]

theorem specFrom_eq_specWindows (R B : Nat) (l : List (Nat × Int)) :
    ∀ (s : Int) (cnt : Nat),
    specFrom R B s cnt l = specWindows B s cnt (windows R l) := by
  induction l with
  | nil =>
    intro s cnt
    rfl
  | cons p rest ih =>
    intro s cnt
    by_cases hp : p.1 % R = 0
    · simp only [specFrom, windows, if_pos hp, specWindows]
      rw [ih]
      have h1 : windowPos [p] = p.1 := by simp [windowPos]
      have h2 : windowSum [p] = p.2 := by simp [windowSum]
      rw [h1, h2]
      rfl
    · simp only [specFrom, windows, if_neg hp]
      rw [ih]
      cases hrec : windows R rest with
      | nil => rfl
      | cons w ws =>
        have hne : w ≠ [] := windows_ne_nil R rest w
          (by rw [hrec]; exact List.mem_cons_self _ _)
        simp only [specWindows]
        have ha : s + windowSum (p :: w) = s + p.2 + windowSum w := by
          rw [windowSum_cons]
          ring
        have hl : cnt + (p :: w).length = cnt + 1 + w.length := by
          simp only [List.length_cons]
          omega
        rw [windowPos_cons p w hne, ha, hl]

theorem specWindows_zero (B : Nat) (ws : List (List (Nat × Int))) :
    specWindows B 0 0 ws = (ws.map (windowEntry B)).flatten := by
  induction ws with
  | nil => rfl
  | cons w ws ih =>
    simp only [specWindows, windowEntry, List.map_cons, List.flatten_cons,
      zero_add, ih]

theorem covSpecEntries_props (R B : Nat) (l : List (Nat × Int)) :
    ∀ e ∈ covSpecEntries R B l, e.2.1 % R = 0 ∧ 0 < e.2.2 := by
  intro e he
  unfold covSpecEntries at he
  rw [List.mem_flatten] at he
  obtain ⟨le, hle, hee⟩ := he
  rw [List.mem_map] at hle
  obtain ⟨w, hw, rfl⟩ := hle
  unfold windowEntry at hee
  by_cases hv : 0 < ceilDiv (windowSum w) w.length
  · rw [if_pos hv] at hee
    rw [List.mem_singleton] at hee
    subst hee
    exact ⟨windows_pos_mod R l w hw, hv⟩
  · rw [if_neg hv] at hee
    simp at hee

theorem annotateLoop_divisors (R B : Nat) (fwd rev : Nat → Option Int)
    (bins : List Nat) : ∀ (cf cr s : Int) (cnt : Nat),
    ∀ d ∈ (annotateLoop R B fwd rev bins cf cr s cnt).2, 1 ≤ d := by
  induction bins with
  | nil =>
    intro cf cr s cnt d hd
    simp [annotateLoop] at hd
  | cons b rest ih =>
    intro cf cr s cnt d hd
    simp only [annotateLoop] at hd
    by_cases hb : b % R = 0
    · rw [if_pos hb] at hd
      dsimp only at hd
      rcases List.mem_cons.mp hd with he | hm
      · omega
      · exact ih _ _ _ _ d hm
    · rw [if_neg hb] at hd
      exact ih _ _ _ _ d hd

/-! ### Residency registry invariants -/

theorem recency_append_self (seq : List Nat) (h : Nat) :
    recency (seq ++ [h]) h = 0 := by
  unfold recency
  rw [List.reverse_append]
  simp

theorem recency_append_ne (seq : List Nat) (h x : Nat) (hne : x ≠ h) :
    recency (seq ++ [h]) x = recency seq x + 1 := by
  unfold recency
  rw [List.reverse_append]
  simp only [List.reverse_cons, List.reverse_nil, List.nil_append,
    List.singleton_append]
  rw [List.indexOf_cons_ne _ (Ne.symm hne)]

theorem cacheInv_mk (seq A L : List Nat) :
    cacheInv seq ⟨A, L⟩ ↔
      (A.Nodup ∧ L.Nodup ∧ (∀ x, x ∈ L ↔ x ∈ A) ∧ A.length ≤ MAX_ACTIVE ∧
        A.Pairwise (fun a b => recency seq b < recency seq a)) := Iff.rfl

theorem cacheInv_touch (seq : List Nat) (st : CacheState) (h : Nat)
    (hinv : cacheInv seq st) : cacheInv (seq ++ [h]) (touchStep st h).1 := by
  obtain ⟨hand, hlnd, hmem, hlen, hpw⟩ := hinv
  have hAnd : (if h ∈ st.active then st.active.erase h ++ [h]
      else st.active ++ [h]).Nodup := by
    by_cases hm : h ∈ st.active
    · rw [if_pos hm, List.nodup_append]
      refine ⟨hand.erase h, List.nodup_singleton _, ?_⟩
      intro a ha hb
      rw [List.mem_singleton] at hb
      exact ((hand.mem_erase_iff).mp ha).1 hb
    · rw [if_neg hm, List.nodup_append]
      refine ⟨hand, List.nodup_singleton _, ?_⟩
      intro a ha hb
      rw [List.mem_singleton] at hb
      exact hm (hb ▸ ha)
  have hAmem : ∀ x, x ∈ (if h ∈ st.active then st.active.erase h ++ [h]
      else st.active ++ [h]) ↔ x ∈ st.active ∨ x = h := by
    intro x
    by_cases hm : h ∈ st.active
    · rw [if_pos hm, List.mem_append, List.mem_singleton,
        hand.mem_erase_iff]
      constructor
      · rintro (⟨_, hx⟩ | hxh)
        · exact Or.inl hx
        · exact Or.inr hxh
      · intro hor
        by_cases hxh : x = h
        · exact Or.inr hxh
        · rcases hor with hx | hx
          · exact Or.inl ⟨hxh, hx⟩
          · exact absurd hx hxh
    · rw [if_neg hm, List.mem_append, List.mem_singleton]
  have hApw : (if h ∈ st.active then st.active.erase h ++ [h]
      else st.active ++ [h]).Pairwise
      (fun a b => recency (seq ++ [h]) b < recency (seq ++ [h]) a) := by
    have hbase : ∀ l : List Nat, (h ∉ l) →
        l.Pairwise (fun a b => recency seq b < recency seq a) →
        (l ++ [h]).Pairwise
          (fun a b => recency (seq ++ [h]) b < recency (seq ++ [h]) a) := by
      intro l hnh hlpw
      rw [List.pairwise_append]
      refine ⟨?_, List.pairwise_singleton _ _, ?_⟩
      · refine hlpw.imp_of_mem ?_
        intro a b ha hb hr
        rw [recency_append_ne seq h a (fun he => hnh (he ▸ ha)),
          recency_append_ne seq h b (fun he => hnh (he ▸ hb))]
        omega
      · intro a ha b hb
        rw [List.mem_singleton] at hb
        rw [hb, recency_append_self, recency_append_ne seq h a
          (fun he => hnh (he ▸ ha))]
        omega
    by_cases hm : h ∈ st.active
    · rw [if_pos hm]
      exact hbase _ hand.not_mem_erase
        (hpw.sublist (List.erase_sublist _ _))
    · rw [if_neg hm]
      exact hbase _ hm hpw
  have hLnd : (if h ∈ st.loaded then st.loaded else st.loaded ++ [h]).Nodup := by
    by_cases hm : h ∈ st.loaded
    · rw [if_pos hm]
      exact hlnd
    · rw [if_neg hm, List.nodup_append]
      refine ⟨hlnd, List.nodup_singleton _, ?_⟩
      intro a ha hb
      rw [List.mem_singleton] at hb
      exact hm (hb ▸ ha)
  have hLmem : ∀ x, x ∈ (if h ∈ st.loaded then st.loaded
      else st.loaded ++ [h]) ↔ x ∈ st.loaded ∨ x = h := by
    intro x
    by_cases hm : h ∈ st.loaded
    · rw [if_pos hm]
      constructor
      · exact Or.inl
      · rintro (hx | rfl)
        · exact hx
        · exact hm
    · rw [if_neg hm, List.mem_append, List.mem_singleton]
  simp only [touchStep]
  by_cases hcap : MAX_ACTIVE <
      (if h ∈ st.active then st.active.erase h ++ [h]
        else st.active ++ [h]).length
  · rw [if_pos hcap]
    have hm : h ∉ st.active := by
      intro hm
      rw [if_pos hm, List.length_append, List.length_erase_of_mem hm,
        List.length_singleton] at hcap
      have hpos : 0 < st.active.length := List.length_pos_of_mem hm
      omega
    rw [if_neg hm] at hcap hAnd hAmem hApw ⊢
    have hlen1 : st.active.length = MAX_ACTIVE := by
      rw [List.length_append, List.length_singleton] at hcap
      omega
    cases hac : st.active with
    | nil =>
      rw [hac] at hlen1
      simp [MAX_ACTIVE] at hlen1
    | cons a tl =>
      rw [hac] at hAnd hAmem hApw hlen1
      simp only [List.cons_append]
      rw [List.cons_append] at hAnd hApw
      rw [cacheInv_mk]
      refine ⟨(List.nodup_cons.mp hAnd).2, hLnd.erase a, ?_, ?_, hApw.of_cons⟩
      · intro x
        rw [hLnd.mem_erase_iff]
        constructor
        · rintro ⟨hxa, hx⟩
          have h2 : x ∈ a :: tl ∨ x = h := by
            rcases (hLmem x).mp hx with h1 | h1
            · rw [← hac]
              exact Or.inl ((hmem x).mp h1)
            · exact Or.inr h1
          have h3 : x ∈ (a :: tl) ++ [h] := (hAmem x).mpr h2
          rw [List.cons_append, List.mem_cons] at h3
          rcases h3 with he | hm'
          · exact absurd he hxa
          · exact hm'
        · intro hx
          have hxa : x ≠ a := by
            intro he
            subst he
            exact (List.nodup_cons.mp hAnd).1 hx
          refine ⟨hxa, ?_⟩
          have h3 : x ∈ (a :: tl) ++ [h] := by
            rw [List.cons_append, List.mem_cons]
            exact Or.inr hx
          have h2 := (hAmem x).mp h3
          rw [hLmem x]
          rcases h2 with h2 | h2
          · rw [← hac] at h2
            exact Or.inl ((hmem x).mpr h2)
          · exact Or.inr h2
      · rw [List.length_cons] at hlen1
        rw [List.length_append, List.length_singleton]
        omega
  · rw [if_neg hcap]
    dsimp only
    rw [cacheInv_mk]
    refine ⟨hAnd, hLnd, ?_, by omega, hApw⟩
    intro x
    rw [hLmem x, hAmem x, hmem x]

theorem runCache_append (seq : List Nat) (h : Nat) :
    runCache (seq ++ [h]) = (touchStep (runCache seq) h).1 := by
  unfold runCache
  rw [List.foldl_append]
  rfl

theorem runCache_inv (seq : List Nat) : cacheInv seq (runCache seq) := by
  induction seq using List.reverseRecOn with
  | nil =>
    rw [show runCache [] = ⟨[], []⟩ from rfl, cacheInv_mk]
    exact ⟨List.nodup_nil, List.nodup_nil, by simp, by simp [MAX_ACTIVE],
      List.Pairwise.nil⟩
  | append_singleton seq h ih =>
    rw [runCache_append]
    exact cacheInv_touch seq (runCache seq) h ih

theorem runCache_loaded_length (seq : List Nat) :
    (runCache seq).loaded.length ≤ MAX_ACTIVE := by
  obtain ⟨hand, hlnd, hmem, hlen, _⟩ := runCache_inv seq
  have hperm : (runCache seq).loaded.Perm (runCache seq).active :=
    (List.perm_ext_iff_of_nodup hlnd hand).mpr hmem
  rw [hperm.length_eq]
  exact hlen

theorem touchStep_evict_facts (seq : List Nat) (st : CacheState) (h e : Nat)
    (hinv : cacheInv seq st) (hev : (touchStep st h).2 = some e) :
    e ≠ h ∧ e ∈ st.active ∧
      (∀ x ∈ st.active, x ≠ e → recency seq x < recency seq e) ∧
      e ∉ (touchStep st h).1.loaded := by
  obtain ⟨hand, hlnd, hmem, hlen, hpw⟩ := hinv
  have hLnd : (if h ∈ st.loaded then st.loaded else st.loaded ++ [h]).Nodup := by
    by_cases hm : h ∈ st.loaded
    · rw [if_pos hm]
      exact hlnd
    · rw [if_neg hm, List.nodup_append]
      refine ⟨hlnd, List.nodup_singleton _, ?_⟩
      intro a ha hb
      rw [List.mem_singleton] at hb
      exact hm (hb ▸ ha)
  simp only [touchStep] at hev ⊢
  by_cases hcap : MAX_ACTIVE <
      (if h ∈ st.active then st.active.erase h ++ [h]
        else st.active ++ [h]).length
  · rw [if_pos hcap] at hev ⊢
    have hm : h ∉ st.active := by
      intro hm
      rw [if_pos hm, List.length_append, List.length_erase_of_mem hm,
        List.length_singleton] at hcap
      have hpos : 0 < st.active.length := List.length_pos_of_mem hm
      omega
    rw [if_neg hm] at hev ⊢
    cases hac : st.active with
    | nil =>
      rw [hac] at hcap
      simp [MAX_ACTIVE] at hcap
    | cons a tl =>
      rw [hac] at hev
      simp only [List.cons_append] at hev ⊢
      rw [Option.some.injEq] at hev
      subst hev
      refine ⟨?_, ?_, ?_, hLnd.not_mem_erase⟩
      · intro he
        rw [hac] at hm
        rw [he] at hm
        exact hm (List.mem_cons_self _ _)
      · exact List.mem_cons_self a tl
      · intro x hx hxe
        rw [hac] at hpw
        rcases List.mem_cons.mp hx with he | hm'
        · exact absurd he hxe
        · exact (List.pairwise_cons.mp hpw).1 x hm'
  · rw [if_neg hcap] at hev
    dsimp only at hev
    exact absurd hev (by simp)

/-! ### Claims -/

/-- C1: with the combine resolution R = `config.coverage_binsize_combine`
(the `resolution` argument of `annotate_block_coverages` is ignored by the
source, as the last conjunct shows), the emitted coverage entries are
exactly the window entries the spec prescribes: one entry per complete combine window,
at the flush bin of the window — a position evenly divisible by R — holding
`ceil(sum of forward+reverse depth over the window / number of native bins
in the window)`, with zero-valued windows omitted. -/
theorem C1_annotate_block_coverages (cfg : Config) (minBin leadEnd : Nat)
    (fwd rev : Nat → Option Int)
    (hR : 0 < cfg.coverage_binsize_combine)
    (hbs : 0 < cfg.coverage_binsize) :
    annotateEntries cfg minBin leadEnd fwd rev =
      covSpecEntries cfg.coverage_binsize_combine cfg.snf_block_size
        (depthTrace fwd rev 0 0 (annotateBins cfg minBin leadEnd)) ∧
    (∀ e ∈ annotateEntries cfg minBin leadEnd fwd rev,
      e.2.1 % cfg.coverage_binsize_combine = 0 ∧ 0 < e.2.2) ∧
    ∀ (f : SNFileW) (resolution : Nat),
      annotate_block_coverages f minBin leadEnd fwd rev resolution =
        annotate_block_coverages f minBin leadEnd fwd rev 500 := by
  have heq : annotateEntries cfg minBin leadEnd fwd rev =
      covSpecEntries cfg.coverage_binsize_combine cfg.snf_block_size
        (depthTrace fwd rev 0 0 (annotateBins cfg minBin leadEnd)) := by
    unfold annotateEntries covSpecEntries
    rw [annotateLoop_eq_specFrom, specFrom_eq_specWindows, specWindows_zero]
  exact ⟨heq, fun e he => covSpecEntries_props _ _ _ e (heq ▸ he),
    fun f resolution => rfl⟩

theorem C1_annotate_block_coverages_witness :
    0 < cfg1.coverage_binsize_combine ∧ 0 < cfg1.coverage_binsize ∧
    (annotateEntries cfg1 100 650 fwd1 rev1 =
      covSpecEntries cfg1.coverage_binsize_combine cfg1.snf_block_size
        (depthTrace fwd1 rev1 0 0 (annotateBins cfg1 100 650)) ∧
    (∀ e ∈ annotateEntries cfg1 100 650 fwd1 rev1,
      e.2.1 % cfg1.coverage_binsize_combine = 0 ∧ 0 < e.2.2) ∧
    ∀ (f : SNFileW) (resolution : Nat),
      annotate_block_coverages f 100 650 fwd1 rev1 resolution =
        annotate_block_coverages f 100 650 fwd1 rev1 500) :=
  ⟨by decide, by decide,
    C1_annotate_block_coverages cfg1 100 650 fwd1 rev1 (by decide) (by decide)⟩

/-- C10: every ceiling division performed by the coverage annotation loop
divides by a `bin_count` of at least 1: the count is incremented before the
divisibility check on every iteration and only reset after a flush, so the
division never divides by zero. -/
theorem C10_bin_count_positive (cfg : Config) (minBin leadEnd : Nat)
    (fwd rev : Nat → Option Int) :
    ∀ d ∈ (annotateLoop cfg.coverage_binsize_combine cfg.snf_block_size
        fwd rev (annotateBins cfg minBin leadEnd) 0 0 0 0).2, 1 ≤ d :=
  annotateLoop_divisors cfg.coverage_binsize_combine cfg.snf_block_size
    fwd rev (annotateBins cfg minBin leadEnd) 0 0 0 0

theorem C10_bin_count_positive_witness :
    (5 : Nat) ∈ (annotateLoop cfg1.coverage_binsize_combine
      cfg1.snf_block_size fwd1 rev1 (annotateBins cfg1 100 650) 0 0 0 0).2 ∧
    1 ≤ (5 : Nat) :=
  ⟨by decide, C10_bin_count_positive cfg1 100 650 fwd1 rev1 5 (by decide)⟩

/-- C3: across any sequence of lazy header/index accesses, at most
`_MAX_ACTIVE = 50` handles hold non-absent header/index state; when an
access evicts, it evicts exactly the least-recently-touched registered
handle — never the handle just touched — and frees its header/index. -/
theorem C3_residency_bound (seq : List Nat) :
    (runCache seq).loaded.length ≤ MAX_ACTIVE ∧
    ∀ h e, (touchStep (runCache seq) h).2 = some e →
      e ≠ h ∧ e ∈ (runCache seq).active ∧
        (∀ x ∈ (runCache seq).active, x ≠ e →
          recency seq x < recency seq e) ∧
        e ∉ (touchStep (runCache seq) h).1.loaded :=
  ⟨runCache_loaded_length seq,
    fun h e hev =>
      touchStep_evict_facts seq (runCache seq) h e (runCache_inv seq) hev⟩

set_option maxRecDepth 8000 in
theorem C3_residency_bound_witness :
    (touchStep (runCache (List.range 50)) 50).2 = some 0 ∧
    (0 ≠ 50 ∧ 0 ∈ (runCache (List.range 50)).active ∧
      (∀ x ∈ (runCache (List.range 50)).active, x ≠ 0 →
        recency (List.range 50) x < recency (List.range 50) 0) ∧
      0 ∉ (touchStep (runCache (List.range 50)) 50).1.loaded) :=
  ⟨by decide, (C3_residency_bound (List.range 50)).2 50 0 (by decide)⟩

/-- C4 counterexample: after `write_and_index` on a writer holding one
stored candidate, the written stream is exactly the compressed
payload `[7, 7]`: nothing precedes the body, and the stream contains no
newline byte, so it does not begin with a (nonempty, newline-terminated)
header record containing the index. -/
theorem C4_counterexample :
    (write_and_index gz0 pdump4 (storeAll cfg0 [⟨5, .INS, none⟩])).2 =
      [7, 7] ∧
    (∀ hb : List Nat,
      (write_and_index gz0 pdump4 (storeAll cfg0 [⟨5, .INS, none⟩])).2 =
        hb ++ [7, 7] → hb = []) ∧
    (10 : Nat) ∉ (write_and_index gz0 pdump4 (storeAll cfg0 [⟨5, .INS, none⟩])).2 := by
  have hbytes : (write_and_index gz0 pdump4
      (storeAll cfg0 [⟨5, .INS, none⟩])).2 = [7, 7] := by decide
  refine ⟨hbytes, ?_, by decide⟩
  intro hb hsplit
  rw [hbytes] at hsplit
  have hlen := congrArg List.length hsplit
  rw [List.length_append] at hlen
  simp only [List.length_cons, List.length_nil] at hlen
  have : hb.length = 0 := by omega
  exact List.length_eq_zero.mp this

/-- C4 amended: `write_and_index` writes exactly the concatenated
compressed block payloads in ascending block-id order; it materializes no
header record — nothing precedes the body in the written stream.  (Header
materialization happens outside `write_and_index`.) -/
theorem C4_amended_write_and_index (gz : List Nat → List Nat)
    (pdump : Block → List Nat) (f : SNFileW) :
    (write_and_index gz pdump f).2 =
      (((f.blocks.map Prod.fst).insertionSort (· ≤ ·)).map
        (fun bid => gz (serialize_block pdump f bid))).flatten ∧
    ∀ hb : List Nat,
      (write_and_index gz pdump f).2 =
        hb ++ (((f.blocks.map Prod.fst).insertionSort (· ≤ ·)).map
          (fun bid => gz (serialize_block pdump f bid))).flatten →
      hb = [] := by
  have h1 : (write_and_index gz pdump f).2 =
      (((f.blocks.map Prod.fst).insertionSort (· ≤ ·)).map
        (fun bid => gz (serialize_block pdump f bid))).flatten := by
    rw [write_and_index_snd, wiLoop_bytes]
  refine ⟨h1, ?_⟩
  intro hb hsplit
  rw [h1] at hsplit
  have hlen := congrArg List.length hsplit
  rw [List.length_append] at hlen
  have : hb.length = 0 := by omega
  exact List.length_eq_zero.mp this

theorem C4_amended_write_and_index_witness :
    (write_and_index gz0 pdump4 (storeAll cfg0 [⟨5, .INS, none⟩])).2 =
      ((((storeAll cfg0 [⟨5, .INS, none⟩]).blocks.map Prod.fst).insertionSort
        (· ≤ ·)).map (fun bid => gz0 (serialize_block pdump4
          (storeAll cfg0 [⟨5, .INS, none⟩]) bid))).flatten ∧
    ([] : List Nat) = [] :=
  ⟨(C4_amended_write_and_index gz0 pdump4 (storeAll cfg0 [⟨5, .INS, none⟩])).1,
   (C4_amended_write_and_index gz0 pdump4 (storeAll cfg0 [⟨5, .INS, none⟩])).2 []
     (by simpa using
       (C4_amended_write_and_index gz0 pdump4
         (storeAll cfg0 [⟨5, .INS, none⟩])).1)⟩

/-- C7: `write_and_index` writes the buffered blocks in ascending block-id
order, and records for every present block id an (offset, length) pair
where length is the compressed payload size of that block and offset is the sum
of the compressed sizes of all blocks with smaller ids (relative to the
body start). -/
theorem C7_write_and_index_layout (gz : List Nat → List Nat)
    (pdump : Block → List Nat) (f : SNFileW)
    (hnd : (f.blocks.map Prod.fst).Nodup) (hix : f.index = []) :
    ((f.blocks.map Prod.fst).insertionSort (· ≤ ·)).Sorted (· ≤ ·) ∧
    (write_and_index gz pdump f).2 =
      (((f.blocks.map Prod.fst).insertionSort (· ≤ ·)).map
        (fun bid => gz (serialize_block pdump f bid))).flatten ∧
    ∀ bid ∈ f.blocks.map Prod.fst,
      alookup (write_and_index gz pdump f).1.index bid =
        some ((((f.blocks.map Prod.fst).filter (fun b => decide (b < bid))).map
            (fun b => (gz (serialize_block pdump f b)).length)).sum,
          (gz (serialize_block pdump f bid)).length) := by
  refine ⟨List.sorted_insertionSort _ _, ?_, ?_⟩
  · rw [write_and_index_snd, wiLoop_bytes]
  · intro bid hmem
    exact write_and_index_lookup gz pdump f hnd hix bid hmem

theorem C7_write_and_index_layout_witness :
    (1000 : Nat) ∈ (storeAll cfg0 cs0).blocks.map Prod.fst ∧
    alookup (write_and_index gz0 pdump0 (storeAll cfg0 cs0)).1.index 1000 =
      some (((((storeAll cfg0 cs0).blocks.map Prod.fst).filter
          (fun b => decide (b < 1000))).map
          (fun b => (gz0 (serialize_block pdump0 (storeAll cfg0 cs0) b)).length)).sum,
        (gz0 (serialize_block pdump0 (storeAll cfg0 cs0) 1000)).length) :=
  ⟨by decide,
    (C7_write_and_index_layout gz0 pdump0 (storeAll cfg0 cs0) (by decide)
      (by decide)).2.2 1000 (by decide)⟩

/-- C2: storing candidates (block id `floor(pos / block_size) * block_size`,
grouped per type tag in insertion order, read names cleared iff read-name
output is disabled — all captured by `specBlock`), flushing, materializing
the file (header step modelled from the spec) and reopening: `read_header`
recovers the header, and `read_blocks` returns, for every stored block id, the
candidates exactly as grouped at store time. -/
theorem C2_store_flush_reopen_read (cfg : Config) (cs : List SVCall)
    (contig filename : String) (meta : List (String × String))
    (gz : List Nat → List Nat) (pdump : Block → List Nat)
    (gunzip : List Nat → Option (List Nat)) (pload : List Nat → Option Block)
    (hEnc : Header → List Nat) (hDec : List Nat → Option Header)
    (pre : List Nat)
    (hstr : (((storeAll cfg cs).blocks.map Prod.fst).map
        (fun n => toString n)).Nodup)
    (hcodec : ∀ e ∈ (storeAll cfg cs).blocks,
        gunzip (gz (pdump e.2)) = some (pdump e.2) ∧
        pload (pdump e.2) = some e.2)
    (henc : hEnc (pipeHeader cfg cs contig meta gz pdump) = pre ++ [10])
    (hpre : 10 ∉ pre)
    (hdec : hDec (pre ++ [10]) = some (pipeHeader cfg cs contig meta gz pdump)) :
    (read_header hDec (reopen filename
        (pipeBytes cfg cs contig meta gz pdump hEnc)
        cfg.combine_close_handles)).2 =
      .ok (pipeHeader cfg cs contig meta gz pdump) ∧
    ∀ bid ∈ cs.map (blkId cfg),
      (read_blocks gunzip pload
          (pipeReader cfg cs contig filename meta gz pdump hEnc hDec) contig
          (.int (bid : Int))).2 = .ok (some [specBlock cfg cs bid]) := by
  constructor
  · unfold pipeBytes
    rw [henc,
      read_header_on filename _ cfg.combine_close_handles hDec _ pre hpre hdec]
  · exact fun bid hbid => pipe_read_blocks cfg cs contig filename meta gz
      pdump gunzip pload hEnc hDec pre hstr hcodec henc hpre hdec bid hbid

theorem C2_store_flush_reopen_read_witness :
    (read_blocks gunzip0 pload0 reader0 "chr1" (.int (0 : Int))).2 =
      .ok (some [specBlock cfg0 cs0 0]) ∧
    (read_blocks gunzip0 pload0 reader0 "chr1" (.int (1000 : Int))).2 =
      .ok (some [specBlock cfg0 cs0 1000]) ∧
    specBlock cfg0 cs0 0 =
      ⟨[(.INS, [⟨100, .INS, none⟩, ⟨250, .INS, none⟩]), (.DEL, []),
        (.DUP, []), (.INV, []), (.BND, [])], []⟩ ∧
    specBlock cfg0 cs0 1000 =
      ⟨[(.INS, []), (.DEL, [⟨1100, .DEL, none⟩]), (.DUP, []), (.INV, []),
        (.BND, [])], []⟩ :=
  ⟨(C2_store_flush_reopen_read cfg0 cs0 "chr1" "sample.snf" [] gz0 pdump0
      gunzip0 pload0 hEnc0 hDec0 [] (by decide) (by decide) rfl (by decide)
      (by decide)).2 0 (by decide),
   (C2_store_flush_reopen_read cfg0 cs0 "chr1" "sample.snf" [] gz0 pdump0
      gunzip0 pload0 hEnc0 hDec0 [] (by decide) (by decide) rfl (by decide)
      (by decide)).2 1000 (by decide),
   by decide, by decide⟩

/-- C5: `read_blocks` returns an absent value (`none`), not an error, when
the requested contig is missing from the index or the requested block id is
missing under that contig. -/
theorem C5_read_blocks_absent (gunzip : List Nat → Option (List Nat))
    (pload : List Nat → Option Block) (fr : SNFileR) (contig : String)
    (k : PyKey)
    (h : alookup fr.index contig = none ∨
      ∃ sub, alookup fr.index contig = some sub ∧
        alookup sub (pyStr k) = none) :
    (read_blocks gunzip pload fr contig k).2 = .ok none := by
  rcases h with h | ⟨sub, h1, h2⟩
  · exact read_blocks_snd_contig_none gunzip pload fr contig k h
  · exact read_blocks_snd_block_none gunzip pload fr contig k sub h1 h2

theorem C5_read_blocks_absent_witness :
    (read_blocks gunzip0 pload0 reader0 "chr1" (.int 77)).2 = .ok none ∧
    (read_blocks gunzip0 pload0 reader0 "chrX" (.int 0)).2 = .ok none :=
  ⟨C5_read_blocks_absent gunzip0 pload0 reader0 "chr1" (.int 77)
      (Or.inr ⟨[("0", [(0, 1)]), ("1000", [(1, 1)])], by decide, by decide⟩),
   C5_read_blocks_absent gunzip0 pload0 reader0 "chrX" (.int 0)
      (Or.inl (by decide))⟩

/-- C6: if decompressing or decoding any registered range fails, the whole
`read_blocks` call fails with an error carrying the file, contig and block
identity — no partial result is returned, even when earlier ranges decoded
successfully. -/
theorem C6_read_blocks_decode_failure (gunzip : List Nat → Option (List Nat))
    (pload : List Nat → Option Block) (fr : SNFileR) (contig : String)
    (k : PyKey) (sub : List (String × List (Nat × Nat)))
    (ranges : List (Nat × Nat))
    (h1 : alookup fr.index contig = some sub)
    (h2 : alookup sub (pyStr k) = some ranges)
    (hf : ∃ r ∈ ranges, decodeRange gunzip pload fr r = none) :
    (read_blocks gunzip pload fr contig k).2 =
      .error ⟨fr.filename, contig, pyStr k⟩ := by
  rw [read_blocks_snd_ranges gunzip pload fr contig k sub ranges h1 h2,
    read_ranges_error gunzip pload fr contig (pyStr k) ranges hf]

theorem C6_read_blocks_decode_failure_witness :
    (read_blocks gunzip6 pload6 fr6 "chr1" (.int 0)).2 =
      .error ⟨"bad.snf", "chr1", "0"⟩ ∧
    decodeRange gunzip6 pload6 fr6 (0, 1) = some Block.empty :=
  ⟨C6_read_blocks_decode_failure gunzip6 pload6 fr6 "chr1" (.int 0)
      [("0", [(0, 1), (1, 1)])] [(0, 1), (1, 1)] (by decide) (by decide)
      ⟨(1, 1), by decide, by decide⟩,
   by decide⟩

/-- C9: `read_blocks` coerces its block-id argument to its string form
before the index lookup: the integer call and the string-rendering call
return identical results, and when no entry under the contig is keyed by
the string rendering of the integer, the integer lookup yields an absent
result. -/
theorem C9_read_blocks_string_coercion (gunzip : List Nat → Option (List Nat))
    (pload : List Nat → Option Block) (fr : SNFileR) (contig : String)
    (b : Int) :
    read_blocks gunzip pload fr contig (.int b) =
      read_blocks gunzip pload fr contig (.str (toString b)) ∧
    ∀ sub, alookup fr.index contig = some sub →
      alookup sub (toString b) = none →
      (read_blocks gunzip pload fr contig (.int b)).2 = .ok none := by
  refine ⟨rfl, ?_⟩
  intro sub h1 h2
  exact read_blocks_snd_block_none gunzip pload fr contig (.int b) sub h1 h2

theorem C9_read_blocks_string_coercion_witness :
    read_blocks gunzip0 pload0 reader0 "chr1" (.int 77) =
      read_blocks gunzip0 pload0 reader0 "chr1" (.str (toString (77 : Int))) ∧
    (read_blocks gunzip0 pload0 reader0 "chr1" (.int 77)).2 = .ok none :=
  ⟨(C9_read_blocks_string_coercion gunzip0 pload0 reader0 "chr1" 77).1,
   (C9_read_blocks_string_coercion gunzip0 pload0 reader0 "chr1" 77).2
     [("0", [(0, 1)]), ("1000", [(1, 1)])] (by decide) (by decide)⟩

/-- C8: `unload` changes only the cached header and index (both become
absent) and removes the handle from the residency registry; the device
handle state, the stored contents and the buffered write-side blocks are
untouched, and a subsequent `index` access transparently reloads the
header and index from storage. -/
theorem C8_unload_frame (f : LazyFile) (reg : List Nat) (id : Nat)
    (hDec : List Nat → Option Header) (hdr : Header)
    (hreg : reg.Nodup)
    (hdec : hDec (readLine f.contents) = some hdr) :
    ((f.unload reg id).1.handle = f.handle ∧
     (f.unload reg id).1.blocks = f.blocks ∧
     (f.unload reg id).1.contents = f.contents ∧
     (f.unload reg id).1.filename = f.filename ∧
     (f.unload reg id).1.combine_close_handles = f.combine_close_handles ∧
     (f.unload reg id).1.header = none ∧
     (f.unload reg id).1.index = none) ∧
    id ∉ (f.unload reg id).2 ∧
    (∀ x, x ≠ id → ((x ∈ (f.unload reg id).2) ↔ x ∈ reg)) ∧
    (LazyFile.indexProp hDec (f.unload reg id).1).2 = .ok (some hdr.index) ∧
    (LazyFile.indexProp hDec (f.unload reg id).1).1.header = some hdr := by
  refine ⟨⟨rfl, rfl, rfl, rfl, rfl, rfl, rfl⟩, ?_, ?_, ?_, ?_⟩
  · unfold LazyFile.unload
    dsimp only
    split
    · exact hreg.not_mem_erase
    · rename_i hnm
      exact hnm
  · intro x hx
    unfold LazyFile.unload
    dsimp only
    split
    · rw [hreg.mem_erase_iff]
      constructor
      · rintro ⟨_, hmm⟩
        exact hmm
      · intro hmm
        exact ⟨hx, hmm⟩
    · exact Iff.rfl
  · show (LazyFile.indexProp hDec
      { f with header := none, index := none }).2 = .ok (some hdr.index)
    by_cases hh : f.handle <;> by_cases hc : f.combine_close_handles <;>
      simp [LazyFile.indexProp, LazyFile.read_header, hdec, hh, hc]
  · show (LazyFile.indexProp hDec
      { f with header := none, index := none }).1.header = some hdr
    by_cases hh : f.handle <;> by_cases hc : f.combine_close_handles <;>
      simp [LazyFile.indexProp, LazyFile.read_header, hdec, hh, hc]

theorem C8_unload_frame_witness :
    ((LazyFile.unload lz0 [5] 5).1.handle = lz0.handle ∧
     (LazyFile.unload lz0 [5] 5).1.blocks = lz0.blocks ∧
     (LazyFile.unload lz0 [5] 5).1.contents = lz0.contents ∧
     (LazyFile.unload lz0 [5] 5).1.filename = lz0.filename ∧
     (LazyFile.unload lz0 [5] 5).1.combine_close_handles =
       lz0.combine_close_handles ∧
     (LazyFile.unload lz0 [5] 5).1.header = none ∧
     (LazyFile.unload lz0 [5] 5).1.index = none) ∧
    5 ∉ (LazyFile.unload lz0 [5] 5).2 ∧
    (LazyFile.indexProp hDecL (LazyFile.unload lz0 [5] 5).1).2 =
      .ok (some hdrL.index) :=
  ⟨(C8_unload_frame lz0 [5] 5 hDecL hdrL (by decide) (by decide)).1,
   (C8_unload_frame lz0 [5] 5 hDecL hdrL (by decide) (by decide)).2.1,
   (C8_unload_frame lz0 [5] 5 hDecL hdrL (by decide) (by decide)).2.2.2.1⟩

end Sniffles
